import Mathlib

/-!
Verification development for the unweighted-UniFrac pipeline
(`src/compute.rs`, `src/io.rs`, `src/main.rs`).

Shallow embedding conventions:
* `f64` values are modelled as exact rationals (`ℚ`); IEEE rounding and NaN
  are outside the model (division by zero is the `ℚ` convention `x / 0 = 0`,
  and the spots where the Rust code would produce `NaN` are noted).
* The phylotree collaborator (an external crate, not part of this repository)
  is modelled from the spec, sections 3, 4.1 and 6: a rooted node-indexed tree
  where every node has an optional name, an optional parent-edge length and a
  list of children.  Node indices are stable across pruning, and the
  collaborator's `size()` counts node slots, which for a freshly parsed tree
  equals the node count; per the spec the per-pair arrays are all indexed by
  those slots.
* Fallible Rust code returns `Except Err`; a Rust panic (a failed `unwrap()`
  or an out-of-bounds index) is modelled by the distinguished error
  `Err.panicked`, which is not a returned `Result` error value in Rust.
* `ndarray` vectors and matrices are modelled as total functions out of `Nat`
  (zero outside the used range, exactly like the zero-initialised arrays).
* `u8` matrix entries use wrapping addition, modelled as `% 256`.
-/

namespace UF

/-- Error taxonomy of the embedded pipeline.  `pruneFailed` models the
`anyhow` error propagated from a failed prune (context "Prune failed"),
`getFailed` a failed node lookup inside `construct_b`, `noHeader` and
`taxonMissing` the reader errors, and `panicked` a Rust panic (not a
returned error value). -/
inductive Err where
  | pruneFailed
  | getFailed
  | noHeader
  | taxonMissing
  | panicked
deriving DecidableEq

/-- A panic aborts the process; it is not a returned `Result` error value. -/
def Err.isPanic : Err → Bool
  | .panicked => true
  | _ => false

/-- Rooted node-indexed tree, modelled from the spec (section 3): each node
has a stable integer id, an optional name (required for tips), an optional
parent-edge length (absent at the root) and a list of children. -/
inductive PTree where
  | node (nid : Nat) (pname : Option String) (plen : Option ℚ) (children : List PTree)

/-- Node id of the root of a subtree. -/
def PTree.rid : PTree → Nat
  | .node i _ _ _ => i

/-- Name stored at the root of a subtree. -/
def PTree.rname : PTree → Option String
  | .node _ nm _ _ => nm

/-- Parent-edge length stored at the root of a subtree. -/
def PTree.rplen : PTree → Option ℚ
  | .node _ _ pl _ => pl

/-- Children of the root of a subtree. -/
def PTree.kids : PTree → List PTree
  | .node _ _ _ cs => cs

mutual
/-- Postorder enumeration of node ids (children strictly before parents),
modelling the collaborator's `postorder(&root)`. -/
def PTree.post : PTree → List Nat
  | .node i _ _ cs => PTree.postL cs ++ [i]
/-- Postorder ids of a forest, left to right. -/
def PTree.postL : List PTree → List Nat
  | [] => []
  | c :: cs => PTree.post c ++ PTree.postL cs
end

/-- Number of live nodes; for a freshly parsed tree this is the
collaborator's `size()`. -/
def sizeT (t : PTree) : Nat := (PTree.post t).length

mutual
/-- The `(id, name)` pairs of the tips (childless nodes) in leaf-enumeration
order, modelling the collaborator's `get_leaves()` plus name lookup. -/
def leafInfo : PTree → List (Nat × Option String)
  | .node i nm _ [] => [(i, nm)]
  | .node _ _ _ (c :: cs) => leafInfoL (c :: cs)
/-- Tips of a forest, left to right. -/
def leafInfoL : List PTree → List (Nat × Option String)
  | [] => []
  | c :: cs => leafInfo c ++ leafInfoL cs
end

/-- Ids of the tips in leaf-enumeration order (`get_leaves()`). -/
def leavesIds (t : PTree) : List Nat := (leafInfo t).map Prod.fst

/-- Every tip carries a name (spec section 3: names are required for tips). -/
def tipsNamedB (t : PTree) : Bool := (leafInfo t).all (fun p => p.2.isSome)

mutual
/-- Node lookup by id (`tree.get(&idx)`), first match in preorder. -/
def findT : PTree → Nat → Option PTree
  | .node i nm pl cs, k =>
      if i = k then some (.node i nm pl cs) else findTL cs k
/-- Node lookup in a forest. -/
def findTL : List PTree → Nat → Option PTree
  | [], _ => none
  | c :: cs, k =>
      match findT c k with
      | some r => some r
      | none => findTL cs k
end

mutual
/-- All subtrees (nodes together with their descendants) of a tree. -/
def subAll : PTree → List PTree
  | .node i nm pl cs => .node i nm pl cs :: subAllL cs
/-- All subtrees of a forest. -/
def subAllL : List PTree → List PTree
  | [] => []
  | c :: cs => subAll c ++ subAllL cs
end

mutual
/-- Ids on the path from the root of the subtree down to the node with the
given id ([] when the id does not occur). -/
def pathTo : PTree → Nat → List Nat
  | .node i _ _ cs, k =>
      if i = k then [i]
      else
        match pathToL cs k with
        | [] => []
        | p => i :: p
/-- Path search in a forest: the path inside the child that contains the id. -/
def pathToL : List PTree → Nat → List Nat
  | [], _ => []
  | c :: cs, k =>
      match pathTo c k with
      | [] => pathToL cs k
      | p => p
end

mutual
/-- No node has exactly one child (spec, glossary: pruning collapses
degree-1 internal nodes, so a well-formed phylogeny has none). -/
def noUnaryB : PTree → Bool
  | .node _ _ _ cs => decide (cs.length ≠ 1) && noUnaryBL cs
/-- `noUnaryB` on a forest. -/
def noUnaryBL : List PTree → Bool
  | [] => true
  | c :: cs => noUnaryB c && noUnaryBL cs
end

mutual
/-- Modelled from the spec (section 4.1): `compress()` collapses every
internal node that is left with a single child, merging the two edge
lengths; the surviving node keeps the child's id and name.  The collaborator
call is fallible in Rust but the model is total. -/
def compress : PTree → PTree
  | .node i nm pl cs =>
      match compressL cs with
      | [c] => .node c.rid c.rname (some (pl.getD 0 + c.rplen.getD 0)) c.kids
      | cs' => .node i nm pl cs'
/-- `compress` on a forest. -/
def compressL : List PTree → List PTree
  | [] => []
  | c :: cs => compress c :: compressL cs
end

mutual
/-- Modelled from the spec (section 4.1): structural removal of the tip with
the given id; `none` when no such tip exists below the root. -/
def removeIn : PTree → Nat → Option PTree
  | .node i nm pl cs, lid => (removeInL cs lid).map (.node i nm pl)
/-- Tip removal in a forest (first occurrence). -/
def removeInL : List PTree → Nat → Option (List PTree)
  | [], _ => none
  | c :: cs, lid =>
      if c.rid = lid && c.kids.isEmpty then some cs
      else
        match removeIn c lid with
        | some c' => some (c' :: cs)
        | none => (removeInL cs lid).map (c :: ·)
end

/-- Modelled from the spec (section 4.1): `tree.prune(&l)` removes the tip
with id `lid` and fails with a prune error if the lookup or removal is
inconsistent or if pruning eliminates the tree entirely (fewer than one
node / two leaves remaining). -/
def prune (t : PTree) (lid : Nat) : Except Err PTree :=
  if t.rid = lid then .error .pruneFailed
  else
    match removeIn t lid with
    | none => .error .pruneFailed
    | some t' => if (leavesIds t').length < 2 then .error .pruneFailed else .ok t'

/-- String membership in a list, modelling `HashSet::contains`. -/
def strMem : List String → String → Bool
  | [], _ => false
  | a :: l, s => if a = s then true else strMem l s

/-- The pruning loop of `compute.rs` (`compute_unifrac_for_pair`, lines
26-36): iterate over the leaves of the original clone; for each leaf whose
name is not in the present set, prune it and then compress the whole tree.
The two `unwrap()` calls on the node lookup and its name are panics. -/
def plGoC (keep : List String) : List Nat → PTree → Except Err PTree
  | [], cur => .ok cur
  | l :: rest, cur =>
      match findT cur l with
      | none => .error .panicked
      | some nd =>
          match nd.rname with
          | none => .error .panicked
          | some nm =>
              if strMem keep nm then plGoC keep rest cur
              else
                match prune cur l with
                | .error e => .error e
                | .ok t1 => plGoC keep rest (compress t1)

/-- The pruning loop of `main.rs` (`compute_unifrac_for_pair`, lines
116-125): identical to the `compute.rs` loop except that no compress step
follows the structural removal. -/
def plGoM (keep : List String) : List Nat → PTree → Except Err PTree
  | [], cur => .ok cur
  | l :: rest, cur =>
      match findT cur l with
      | none => .error .panicked
      | some nd =>
          match nd.rname with
          | none => .error .panicked
          | some nm =>
              if strMem keep nm then plGoM keep rest cur
              else
                match prune cur l with
                | .error e => .error e
                | .ok t1 => plGoM keep rest t1

/-- List indexing returning `Option`, modelling slice indexing before the
panic is decided. -/
def lget {α : Type} : List α → Nat → Option α
  | [], _ => none
  | a :: _, 0 => some a
  | _ :: l, n + 1 => lget l n

/-- The present-taxa scan (`compute_unifrac_for_pair`, lines 15-22): a taxon
is kept when its value in column `i` or column `j` is positive.  The slice
indexing `presence_matrix[t_idx][i]` panics when out of bounds. -/
def ptGo (pm : List (List ℚ)) (i j : Nat) :
    List String → Nat → List String → Except Err (List String)
  | [], _, acc => .ok acc
  | tx :: rest, tIdx, acc =>
      match lget pm tIdx with
      | none => .error .panicked
      | some row =>
          match lget row i, lget row j with
          | some vi, some vj =>
              ptGo pm i j rest (tIdx + 1)
                (if 0 < vi ∨ 0 < vj then acc ++ [tx] else acc)
          | _, _ => .error .panicked

/-- Taxa present in sample `i` or sample `j` (lines 15-22 of both copies). -/
def presentTaxa (taxa : List String) (pm : List (List ℚ)) (i j : Nat) :
    Except Err (List String) :=
  ptGo pm i j taxa 0 []

/-- The leaf-ordinal loop (`compute_unifrac_for_pair`, lines 38-44):
enumerate the leaves of the pruned tree, record each leaf's ordinal in
`leaf_order` and its name in `leaf_names`; the `unwrap()`s on the lookup
and the name are panics. -/
def ldGo (t : PTree) : List Nat → Nat → (Nat → Nat) → List String →
    Except Err ((Nat → Nat) × List String)
  | [], _, lo, lns => .ok (lo, lns)
  | l :: rest, ord, lo, lns =>
      match findT t l with
      | none => .error .panicked
      | some nd =>
          match nd.rname with
          | none => .error .panicked
          | some nm =>
              ldGo t rest (ord + 1) (fun k => if k = l then ord else lo k) (lns ++ [nm])

/-- Leaf ordinals and names of the pruned tree (lines 38-44). -/
def leafData (t : PTree) : Except Err ((Nat → Nat) × List String) :=
  ldGo t (leavesIds t) 0 (fun _ => 0) []

/-- Sequential row merge `mat_b.row(idx) += mat_b.row(c)` over the child
ids, with `u8` wrapping addition. -/
def mergeRows (idx : Nat) : (Nat → Nat → ℕ) → List Nat → (Nat → Nat → ℕ)
  | m, [] => m
  | m, cid :: rest =>
      mergeRows idx (fun r c => if r = idx then (m r c + m cid c) % 256 else m r c) rest

/-- One iteration of the `construct_b` postorder loop (lines 66-78): look the
node up, record its parent-edge length (`unwrap_or_default`), and either set
the single indicator bit (tip) or merge the children's rows (internal). -/
def cbStep (top : PTree) (lo : Nat → Nat)
    (st : (Nat → Nat → ℕ) × (Nat → ℚ)) (idx : Nat) :
    Except Err ((Nat → Nat → ℕ) × (Nat → ℚ)) :=
  match findT top idx with
  | none => .error .getFailed
  | some nd =>
      let bl : Nat → ℚ := fun k => if k = idx then nd.rplen.getD 0 else st.2 k
      match nd.kids with
      | [] => .ok (fun r c => if r = idx ∧ c = lo idx then 1 else st.1 r c, bl)
      | cs => .ok (mergeRows idx st.1 (cs.map PTree.rid), bl)

/-- The `construct_b` postorder loop over a list of node ids. -/
def cbRun (top : PTree) (lo : Nat → Nat) :
    List Nat → (Nat → Nat → ℕ) × (Nat → ℚ) →
    Except Err ((Nat → Nat → ℕ) × (Nat → ℚ))
  | [], st => .ok st
  | idx :: rest, st =>
      match cbStep top lo st idx with
      | .error e => .error e
      | .ok st' => cbRun top lo rest st'

/-- `construct_b` (compute.rs lines 59-81 and the identical copy in
main.rs): build the branch × leaf indicator matrix and the branch-length
vector by a postorder sweep, starting from all-zero arrays. -/
def construct_b (t : PTree) (lo : Nat → Nat) :
    Except Err ((Nat → Nat → ℕ) × (Nat → ℚ)) :=
  cbRun t lo (PTree.post t) (fun _ _ => 0, fun _ => 0)

/-- Index of the first occurrence of a string
(`taxa_order.iter().position(...)`). -/
def sidxOf : List String → String → Option Nat
  | [], _ => none
  | a :: l, s => if a = s then some 0 else (sidxOf l s).map (· + 1)

/-- The accumulation loop of `get_sample_vec` (lines 95-102): for each leaf
column, resolve the leaf name in the taxa order (the `unwrap()` is a panic),
read the sample's value (slice indexing panics when out of bounds), and if
positive add the indicator column to the accumulator. -/
def gsvGo (mat : Nat → Nat → ℕ) (pm : List (List ℚ)) (taxa : List String)
    (sidx : Nat) : List String → Nat → (Nat → ℚ) → Except Err (Nat → ℚ)
  | [], _, p => .ok p
  | nm :: rest, col, p =>
      match sidxOf taxa nm with
      | none => .error .panicked
      | some tIdx =>
          match lget pm tIdx with
          | none => .error .panicked
          | some row =>
              match lget row sidx with
              | none => .error .panicked
              | some v =>
                  gsvGo mat pm taxa sidx rest (col + 1)
                    (if 0 < v then fun k => p k + (mat k col : ℚ) else p)

/-- `get_sample_vec` (compute.rs lines 84-106 and the identical copy in
main.rs): accumulate the indicator columns of the present leaves, then clamp
every entry to `{0, 1}`. -/
def get_sample_vec (mat : Nat → Nat → ℕ) (pm : List (List ℚ))
    (taxa : List String) (leafNames : List String) (sidx : Nat) :
    Except Err (Nat → ℚ) :=
  match gsvGo mat pm taxa sidx leafNames 0 (fun _ => 0) with
  | .error e => .error e
  | .ok p => .ok (fun k => if 0 < p k then 1 else 0)

/-- `parallel_elementwise_sum` (lines 109-118): the data-parallel reduction
`Σ p_a[k]·p_b[k]·b[k]` over the `n` branch slots; in exact arithmetic the
parallel schedule is the plain sum (addition on `ℚ` is associative and
commutative, spec section 4.4). -/
def parallel_elementwise_sum (pa pb brl : Nat → ℚ) (n : Nat) : ℚ :=
  ∑ k in Finset.range n, pa k * pb k * brl k

/-- `brlens.sum()`: the sum of the branch-length vector over the `n` slots. -/
def arrSum (v : Nat → ℚ) (n : Nat) : ℚ :=
  ∑ k in Finset.range n, v k

/-- `compute_unifrac_for_pair` of `compute.rs` (lines 7-56): present-taxa
scan, prune-and-compress loop, leaf ordinals, `construct_b`, the two sample
vectors, and finally `1 - sum_shared / l_total`.  There is no check of
`l_total`: in Rust a zero total silently yields `Ok(0.0/0.0) = Ok(NaN)`; in
the `ℚ` model the same run yields `Ok(1 - 0) = Ok(1)`. -/
def compute_unifrac_for_pair (t : PTree) (taxa : List String)
    (pm : List (List ℚ)) (i j : Nat) : Except Err ℚ :=
  match presentTaxa taxa pm i j with
  | .error e => .error e
  | .ok pres =>
      match plGoC pres (leavesIds t) t with
      | .error e => .error e
      | .ok sub =>
          match leafData sub with
          | .error e => .error e
          | .ok (lo, lns) =>
              match construct_b sub lo with
              | .error e => .error e
              | .ok (matB, brl) =>
                  match get_sample_vec matB pm taxa lns i with
                  | .error e => .error e
                  | .ok pa =>
                      match get_sample_vec matB pm taxa lns j with
                      | .error e => .error e
                      | .ok pb =>
                          .ok (1 - parallel_elementwise_sum pa pb brl (sizeT t) /
                                arrSum brl (sizeT t))

/-- `compute_unifrac_for_pair` of `main.rs` (lines 103-145): identical to
the `compute.rs` pipeline except that the pruning loop performs no compress
step after each structural removal. -/
def compute_unifrac_for_pair_main (t : PTree) (taxa : List String)
    (pm : List (List ℚ)) (i j : Nat) : Except Err ℚ :=
  match presentTaxa taxa pm i j with
  | .error e => .error e
  | .ok pres =>
      match plGoM pres (leavesIds t) t with
      | .error e => .error e
      | .ok sub =>
          match leafData sub with
          | .error e => .error e
          | .ok (lo, lns) =>
              match construct_b sub lo with
              | .error e => .error e
              | .ok (matB, brl) =>
                  match get_sample_vec matB pm taxa lns i with
                  | .error e => .error e
                  | .ok pa =>
                      match get_sample_vec matB pm taxa lns j with
                      | .error e => .error e
                      | .ok pb =>
                          .ok (1 - parallel_elementwise_sum pa pb brl (sizeT t) /
                                arrSum brl (sizeT t))

/-! ### The sample-table readers -/

/-- Split a character list at every occurrence of the separator
(`str::split`, which never yields an empty iterator). -/
def splitCh (sep : Char) : List Char → List (List Char)
  | [] => [[]]
  | c :: cs =>
      let r := splitCh sep cs
      if c = sep then [] :: r
      else
        match r with
        | [] => [[c]]
        | h :: t => (c :: h) :: t

/-- `line.split('\t')` as a list of strings. -/
def splitTab (s : String) : List String :=
  (splitCh '\t' s.data).map (fun l => String.mk l)

/-- Accumulator step of `split_whitespace`: gather maximal runs of
non-whitespace characters, dropping empty fragments. -/
def splitWsGo : List Char → List Char → List (List Char)
  | [], acc => if acc.isEmpty then [] else [acc.reverse]
  | c :: cs, acc =>
      if c.isWhitespace then
        if acc.isEmpty then splitWsGo cs [] else acc.reverse :: splitWsGo cs []
      else splitWsGo cs (c :: acc)

/-- `line.split_whitespace()` as a list of strings. -/
def splitWs (s : String) : List String :=
  (splitWsGo s.data []).map (fun l => String.mk l)

/-- Binarisation of one table cell in `io.rs` (lines 34-43): parse the text
as `f64` — the parse is the external standard-library collaborator,
abstracted as the `parse` argument — defaulting to `0.0` on failure
(`unwrap_or(0.0)`), then map positive values to `1.0` and all others to
`0.0`. -/
def cellIo (parse : String → Option ℚ) (x : String) : ℚ :=
  if 0 < (parse x).getD 0 then 1 else 0

/-- Binarisation of one table cell in `main.rs` (lines 92-95), a textual
copy of the `io.rs` cell handling. -/
def cellMain (parse : String → Option ℚ) (x : String) : ℚ :=
  if 0 < (parse x).getD 0 then 1 else 0

/-- The data-row loop shared by both readers: take the first fragment as
the taxon name (error when the iterator is empty) and binarise the rest. -/
def rowsGo (cell : String → ℚ) (split : String → List String) :
    List String → List String → List (List ℚ) →
    Except Err (List String × List (List ℚ))
  | [], taxa, pmAcc => .ok (taxa, pmAcc)
  | line :: rest, taxa, pmAcc =>
      match split line with
      | [] => .error .taxonMissing
      | taxon :: vals =>
          rowsGo cell split rest (taxa ++ [taxon]) (pmAcc ++ [vals.map cell])

/-- `read_sample_table` of `io.rs` (lines 16-48): header split on tabs with
the first field ignored, then one row per line; no validation of row
lengths.  File I/O is abstracted: the input is the list of lines. -/
def read_sample_table (parse : String → Option ℚ) (lines : List String) :
    Except Err (List String × List String × List (List ℚ)) :=
  match lines with
  | [] => .error .noHeader
  | header :: rest =>
      let sampleNames := (splitTab header).drop 1
      match rowsGo (cellIo parse) splitTab rest [] [] with
      | .error e => .error e
      | .ok (taxa, pmA) => .ok (taxa, sampleNames, pmA)

/-- `read_sample_table` of `main.rs` (lines 74-100): the second copy of the
reader, splitting on whitespace instead of tabs. -/
def read_sample_table_main (parse : String → Option ℚ) (lines : List String) :
    Except Err (List String × List String × List (List ℚ)) :=
  match lines with
  | [] => .error .noHeader
  | header :: rest =>
      let sampleNames := (splitWs header).drop 1
      match rowsGo (cellMain parse) splitWs rest [] [] with
      | .error e => .error e
      | .ok (taxa, pmA) => .ok (taxa, sampleNames, pmA)

/-! ### Derived predicates and result extractors -/

/-- Whether a leaf entry survives pruning: it has a name and the name is in
the present set. -/
def keptB (pres : List String) (p : Nat × Option String) : Bool :=
  match p.2 with
  | some nm => strMem pres nm
  | none => false

/-- Whether the taxon with the given name is present in the given sample,
following the same lookup chain as `get_sample_vec` (first occurrence in the
taxa order, then the sample's column). -/
def presIn (pm : List (List ℚ)) (taxa : List String) (sidx : Nat)
    (nm : String) : Bool :=
  match sidxOf taxa nm with
  | none => false
  | some tIdx =>
      match lget pm tIdx with
      | none => false
      | some row =>
          match lget row sidx with
          | none => false
          | some v => decide (0 < v)

/-- Whether some leaf of the subtree that is present in the sample descends
through the node with id `k`. -/
def hasPresB (sub : PTree) (pm : List (List ℚ)) (taxa : List String)
    (sidx : Nat) (k : Nat) : Bool :=
  (leafInfo sub).any fun p =>
    match p.2 with
    | some nm => (pathTo sub p.1).contains k && presIn pm taxa sidx nm
    | none => false

/-- Whether some leaf of the subtree has ordinal `c` and passes through the
node with id `k` — the value `construct_b` is expected to store at `(k, c)`. -/
def hitB (lo : Nat → Nat) (s : PTree) (k c : Nat) : Bool :=
  (leavesIds s).any fun lid => lo lid == c && (pathTo s lid).contains k

/-- `hitB` for a forest. -/
def hitBL (lo : Nat → Nat) (cs : List PTree) (k c : Nat) : Bool :=
  ((leafInfoL cs).map Prod.fst).any fun lid =>
    lo lid == c && (pathToL cs lid).contains k

/-- Value of an `Except`-wrapped taxa list, defaulting to `[]`. -/
def okStrs (e : Except Err (List String)) : List String :=
  match e with
  | .ok v => v
  | .error _ => []

/-- Value of an `Except`-wrapped tree, defaulting to a bare root. -/
def okTree (e : Except Err PTree) : PTree :=
  match e with
  | .ok v => v
  | .error _ => .node 0 none none []

/-- Value of an `Except`-wrapped leaf-data pair. -/
def okLD (e : Except Err ((Nat → Nat) × List String)) : (Nat → Nat) × List String :=
  match e with
  | .ok v => v
  | .error _ => (fun _ => 0, [])

/-- Value of an `Except`-wrapped `construct_b` result. -/
def okCB (e : Except Err ((Nat → Nat → ℕ) × (Nat → ℚ))) :
    (Nat → Nat → ℕ) × (Nat → ℚ) :=
  match e with
  | .ok v => v
  | .error _ => (fun _ _ => 0, fun _ => 0)

/-- Value of an `Except`-wrapped sample vector. -/
def okVec (e : Except Err (Nat → ℚ)) : Nat → ℚ :=
  match e with
  | .ok v => v
  | .error _ => fun _ => 0

/-- Value of an `Except`-wrapped distance. -/
def okQ (e : Except Err ℚ) : ℚ :=
  match e with
  | .ok v => v
  | .error _ => 0

/-! ### Concrete inputs used by the counterexamples and witnesses -/

/-- Tree `((T1:1,T3:1):5,(T2:1,T4:1):5);` with node ids in preorder. -/
def exC2t : PTree :=
  .node 0 none none
    [.node 1 none (some 5)
      [.node 2 (some "T1") (some 1) [], .node 3 (some "T3") (some 1) []],
     .node 4 none (some 5)
      [.node 5 (some "T2") (some 1) [], .node 6 (some "T4") (some 1) []]]

/-- Taxa order for `exC2t`. -/
def exC2x : List String := ["T1", "T2", "T3", "T4"]

/-- Presence matrix (taxa order `T1, T2, T3, T4`): sample 0 holds
`{T1, T2}`, sample 1 holds `{T3, T4}` — disjoint present-taxa sets, yet each
internal node has a descendant from both samples. -/
def exC2pm : List (List ℚ) := [[1, 0], [1, 0], [0, 1], [0, 1]]

/-- Tree `(((l1:1,l2:1)P:1,A:1,B:1);` — the internal node `P` is named and
loses both of its leaves during pruning. -/
def exC4t : PTree :=
  .node 0 none none
    [.node 1 (some "P") (some 1)
      [.node 2 (some "l1") (some 1) [], .node 3 (some "l2") (some 1) []],
     .node 4 (some "A") (some 1) [], .node 5 (some "B") (some 1) []]

/-- Taxa order for `exC4t`; the internal name `P` also occurs as a taxon. -/
def exC4x : List String := ["l1", "l2", "P", "A", "B"]

/-- Presence matrix: sample 0 holds `{A, B}`, sample 1 holds `{A}`; `l1`,
`l2` and `P` are absent everywhere. -/
def exC4pm : List (List ℚ) := [[0, 0], [0, 0], [0, 0], [1, 1], [1, 0]]

/-- Two-leaf tree whose branch lengths are all zero: the pruned subtree has
total branch length 0. -/
def exC3t : PTree :=
  .node 0 none none
    [.node 1 (some "T1") (some 0) [], .node 2 (some "T2") (some 0) []]

/-- Taxa order for `exC3t`. -/
def exC3x : List String := ["T1", "T2"]

/-- Both samples contain both taxa. -/
def exC3pm : List (List ℚ) := [[1, 1], [1, 1]]

/-- Two-leaf tree with absent branch lengths (`None`, `unwrap_or_default`
gives 0): again total 0, with identical presence columns. -/
def exC8t : PTree :=
  .node 0 none none
    [.node 1 (some "T1") none [], .node 2 (some "T2") none []]

/-- Taxa order for `exC8t`. -/
def exC8x : List String := ["T1", "T2"]

/-- Identical presence columns. -/
def exC8pm : List (List ℚ) := [[1, 1], [1, 1]]

/-- Two-leaf star tree with branch lengths 1 and 1 (the spec's concrete
scenario, section 8). -/
def exStar : PTree :=
  .node 0 none none
    [.node 1 (some "T1") (some 1) [], .node 2 (some "T2") (some 1) []]

/-- Taxa order for `exStar`. -/
def exStarx : List String := ["T1", "T2"]

/-- Sample 0 holds `{T1}`, sample 1 holds `{T2}`: disjoint. -/
def exStarpm : List (List ℚ) := [[1, 0], [0, 1]]

/-- Three-leaf star tree used by the prune-failure witness. -/
def exC5t : PTree :=
  .node 0 none none
    [.node 1 (some "T1") (some 1) [], .node 2 (some "T2") (some 1) [],
     .node 3 (some "T3") (some 1) []]

/-- Taxa order for `exC5t`. -/
def exC5x : List String := ["T1", "T2", "T3"]

/-- Only `T1` is present anywhere: pruning would leave a single leaf. -/
def exC5pm : List (List ℚ) := [[1, 1], [0, 0], [0, 0]]

/-- A parse function recognising only the literal `5`, used by concrete
reader inputs. -/
def parse5 : String → Option ℚ :=
  fun s => if s = "5" then some 5 else none

/-- A table whose data row has one value while the header has two sample
names. -/
def exC9lines : List String := ["H\tS1\tS2", "T1\t5"]

/-- Whether the pruning loop keeps the leaf with id `l`: the loop's lookup
chain (node by id, then its name, then membership in the present set)
succeeds and answers yes. -/
def leafKeptB (pres : List String) (t : PTree) (l : Nat) : Bool :=
  match findT t l with
  | none => false
  | some nd =>
      match nd.rname with
      | none => false
      | some nm => strMem pres nm

/-- Present taxa of the `exC2` pair. -/
def exC2pres : List String := okStrs (presentTaxa exC2x exC2pm 0 1)

/-- Pruned tree of the `exC2` pair. -/
def exC2sub : PTree := okTree (plGoC exC2pres (leavesIds exC2t) exC2t)

/-- Leaf ordinals and names of the `exC2` pair. -/
def exC2ld : (Nat → Nat) × List String := okLD (leafData exC2sub)

/-- Indicator matrix and branch lengths of the `exC2` pair. -/
def exC2cb : (Nat → Nat → ℕ) × (Nat → ℚ) := okCB (construct_b exC2sub exC2ld.1)

/-- Sample vector of sample 0 of the `exC2` pair. -/
def exC2pa : Nat → ℚ := okVec (get_sample_vec exC2cb.1 exC2pm exC2x exC2ld.2 0)

/-- Sample vector of sample 1 of the `exC2` pair. -/
def exC2pb : Nat → ℚ := okVec (get_sample_vec exC2cb.1 exC2pm exC2x exC2ld.2 1)

/-- Distance of the `exC2` pair. -/
def exC2d : ℚ := okQ (compute_unifrac_for_pair exC2t exC2x exC2pm 0 1)

/-- Parent-edge length (default 0) of the node with the given id, read off
the tree. -/
def plenAt (s : PTree) (k : Nat) : ℚ :=
  match findT s k with
  | some nd => nd.rplen.getD 0
  | none => 0

/-- Forest version of `plenAt`. -/
def plenAtL (cs : List PTree) (k : Nat) : ℚ :=
  match findTL cs k with
  | some nd => nd.rplen.getD 0
  | none => 0

/-- The total contribution accumulated by `get_sample_vec` at row `k`:
for each leaf column (from `col` on), the matrix entry if the leaf's taxon
is present in the sample, else 0. -/
def gsvSum (mat : Nat → Nat → ℕ) (pm : List (List ℚ)) (taxa : List String)
    (sidx : Nat) (k : Nat) : List String → Nat → ℚ
  | [], _ => 0
  | nm :: rest, col =>
      (if presIn pm taxa sidx nm then (mat k col : ℚ) else 0) +
        gsvSum mat pm taxa sidx k rest (col + 1)

/-- Leaf data of the two-leaf star. -/
def exStarLd : (Nat → Nat) × List String := okLD (leafData exStar)

/-- Indicator matrix and branch lengths of the two-leaf star. -/
def exStarCb : (Nat → Nat → ℕ) × (Nat → ℚ) := okCB (construct_b exStar exStarLd.1)

/-- Present set of the `exC5` scenario (only `T1`). -/
def exC5pres : List String := okStrs (presentTaxa exC5x exC5pm 0 1)

/-- Present set of the star-tree disjoint scenario. -/
def exStarPres : List String := okStrs (presentTaxa exStarx exStarpm 0 1)

/-- Pruned subtree of the star-tree disjoint scenario. -/
def exStarSub : PTree := okTree (plGoC exStarPres (leavesIds exStar) exStar)

/-- Leaf data of the star-tree disjoint scenario. -/
def exStarLd2 : (Nat → Nat) × List String := okLD (leafData exStarSub)

/-- Indicator matrix and branch lengths of the star-tree disjoint scenario. -/
def exStarCb2 : (Nat → Nat → ℕ) × (Nat → ℚ) := okCB (construct_b exStarSub exStarLd2.1)

/-- Sample-0 vector of the star-tree disjoint scenario. -/
def exStarPa : Nat → ℚ := okVec (get_sample_vec exStarCb2.1 exStarpm exStarx exStarLd2.2 0)

/-- Sample-1 vector of the star-tree disjoint scenario. -/
def exStarPb : Nat → ℚ := okVec (get_sample_vec exStarCb2.1 exStarpm exStarx exStarLd2.2 1)

/-- Distance of the star-tree disjoint scenario. -/
def exStarD : ℚ := okQ (compute_unifrac_for_pair exStar exStarx exStarpm 0 1)

/-- Presence matrix with identical columns for the two samples. -/
def pmId : List (List ℚ) := [[1, 1], [1, 1]]

/-- Present set of the identical-columns scenario. -/
def idPres : List String := okStrs (presentTaxa exStarx pmId 0 1)

/-- Pruned subtree of the identical-columns scenario. -/
def idSub : PTree := okTree (plGoC idPres (leavesIds exStar) exStar)

/-- Leaf data of the identical-columns scenario. -/
def idLd : (Nat → Nat) × List String := okLD (leafData idSub)

/-- Indicator matrix and branch lengths of the identical-columns scenario. -/
def idCb : (Nat → Nat → ℕ) × (Nat → ℚ) := okCB (construct_b idSub idLd.1)

/-- Sample-0 vector of the identical-columns scenario. -/
def idPa : Nat → ℚ := okVec (get_sample_vec idCb.1 pmId exStarx idLd.2 0)

/-- Sample-1 vector of the identical-columns scenario. -/
def idPb : Nat → ℚ := okVec (get_sample_vec idCb.1 pmId exStarx idLd.2 1)

/-- Distance of the identical-columns scenario. -/
def idD : ℚ := okQ (compute_unifrac_for_pair exStar exStarx pmId 0 1)

/-! ## Lemmas -/

/-- `str::split` never yields an empty iterator. -/
theorem splitCh_ne_nil (sep : Char) : ∀ l : List Char, splitCh sep l ≠ [] := by
  intro l
  induction l with
  | nil => simp [splitCh]
  | cons c cs ih =>
      by_cases h : c = sep
      · simp [splitCh, h]
      · simp only [splitCh, if_neg h]
        cases hr : splitCh sep cs with
        | nil => simp
        | cons a t => simp

/-- Splitting a line on tabs always yields at least one fragment. -/
theorem splitTab_ne_nil (s : String) : splitTab s ≠ [] := by
  simp only [splitTab, ne_eq, List.map_eq_nil_iff]
  exact splitCh_ne_nil _ _

/-- The row loop succeeds whenever the split function never returns an
empty fragment list. -/
theorem rowsGo_isOk_of_split (cell : String → ℚ) (split : String → List String)
    (hs : ∀ s, split s ≠ []) :
    ∀ rest taxa acc, (rowsGo cell split rest taxa acc).isOk = true := by
  intro rest
  induction rest with
  | nil => intro taxa acc; rfl
  | cons line rest ih =>
      intro taxa acc
      cases hsp : split line with
      | nil => exact absurd hsp (hs line)
      | cons taxon vals => simp only [rowsGo, hsp]; exact ih _ _

/-- Whether the row loop succeeds depends only on the lines and the split
function, never on the cell transform or the accumulators. -/
theorem rowsGo_isOk_params (c1 c2 : String → ℚ) (split : String → List String) :
    ∀ rest t1 a1 t2 a2,
      (rowsGo c1 split rest t1 a1).isOk = (rowsGo c2 split rest t2 a2).isOk := by
  intro rest
  induction rest with
  | nil => intro t1 a1 t2 a2; rfl
  | cons line rest ih =>
      intro t1 a1 t2 a2
      cases hsp : split line with
      | nil => simp [rowsGo, hsp]
      | cons taxon vals => simp only [rowsGo, hsp]; exact ih _ _ _ _

/-- Positions found by `sidxOf` are inside the list. -/
theorem sidxOf_lt_length :
    ∀ (taxa : List String) (nm : String) (tIdx : Nat),
      sidxOf taxa nm = some tIdx → tIdx < taxa.length := by
  intro taxa
  induction taxa with
  | nil => intro nm tIdx h; cases h
  | cons a l ih =>
      intro nm tIdx h
      by_cases ha : a = nm
      · simp only [sidxOf, if_pos ha, Option.some.injEq] at h
        subst h; simp
      · simp only [sidxOf, if_neg ha] at h
        cases hl : sidxOf l nm with
        | none => rw [hl] at h; cases h
        | some k =>
            rw [hl] at h
            simp only [Option.map_some', Option.some.injEq] at h
            subst h
            exact Nat.succ_lt_succ (ih nm k hl)

/-- When some leaf name has no position in the taxa order, the accumulation
loop of `get_sample_vec` panics (the `unwrap()` of `position`), provided the
presence matrix is wide enough that no earlier lookup panics first. -/
theorem gsvGo_panics (mat : Nat → Nat → ℕ) (pm : List (List ℚ))
    (taxa : List String) (sidx : Nat)
    (hpm : ∀ tIdx, tIdx < taxa.length →
      ∃ row v, lget pm tIdx = some row ∧ lget row sidx = some v) :
    ∀ lns col p, (∃ nm ∈ lns, sidxOf taxa nm = none) →
      gsvGo mat pm taxa sidx lns col p = .error .panicked := by
  intro lns
  induction lns with
  | nil => rintro col p ⟨nm, hmem, -⟩; cases hmem
  | cons a rest ih =>
      rintro col p ⟨nm, hmem, hnone⟩
      cases ha : sidxOf taxa a with
      | none => simp [gsvGo, ha]
      | some tIdx =>
          obtain ⟨row, v, hrow, hv⟩ := hpm tIdx (sidxOf_lt_length taxa a tIdx ha)
          have hrest : nm ∈ rest := by
            rcases List.mem_cons.mp hmem with rfl | h
            · rw [ha] at hnone; cases hnone
            · exact h
          simp only [gsvGo, ha, hrow, hv]
          exact ih _ _ ⟨nm, hrest, hnone⟩

/-- The clamped sample vector only holds zeros and ones. -/
theorem gsv_zero_one {mat : Nat → Nat → ℕ} {pm : List (List ℚ)}
    {taxa lns : List String} {sidx : Nat} {pa : Nat → ℚ}
    (h : get_sample_vec mat pm taxa lns sidx = .ok pa) :
    ∀ k, pa k = 0 ∨ pa k = 1 := by
  unfold get_sample_vec at h
  cases hg : gsvGo mat pm taxa sidx lns 0 (fun _ => 0) with
  | error e => rw [hg] at h; cases h
  | ok p =>
      rw [hg] at h
      simp only [Except.ok.injEq] at h
      subst h
      intro k
      by_cases h0 : 0 < p k
      · right; simp [h0]
      · left; simp [h0]

/-! ## Claims -/

/-- C9 counterexample: `read_sample_table` happily accepts a table whose
data row has a single value while the header announces two samples — no
mismatched-row-length error is raised. -/
theorem claim_c9_cex :
    read_sample_table parse5 exC9lines = .ok (["T1"], ["S1", "S2"], [[1]]) ∧
      ([(1 : ℚ)].length ≠ ["S1", "S2"].length) := by
  constructor
  · rfl
  · decide

/-- C9 (amended): `read_sample_table` performs no column-count validation at
all; it succeeds on every nonempty list of lines, whatever the row lengths. -/
theorem claim_c9_amended (parse : String → Option ℚ) (lines : List String)
    (hne : lines ≠ []) :
    (read_sample_table parse lines).isOk = true := by
  cases lines with
  | nil => exact absurd rfl hne
  | cons header rest =>
      simp only [read_sample_table]
      have h := rowsGo_isOk_of_split (cellIo parse) splitTab splitTab_ne_nil rest [] []
      cases hr : rowsGo (cellIo parse) splitTab rest [] [] with
      | error e => rw [hr] at h; cases h
      | ok v => rfl

/-- C9 witness: the amended theorem applied to the concrete mismatched
table. -/
theorem claim_c9_amended_w :
    (read_sample_table parse5 exC9lines).isOk = true :=
  claim_c9_amended parse5 exC9lines (by decide)

/-- C10: neither reader can fail because of a malformed numeric cell — a
cell whose text does not parse is binarised to `0.0`, by the same
`unwrap_or(0.0)` logic in both copies; whether a reader fails is independent
of the parse function (the `io.rs` copy succeeds exactly on nonempty
inputs). -/
theorem claim_c10 :
    (∀ (parse : String → Option ℚ) x, parse x = none →
        cellIo parse x = 0 ∧ cellMain parse x = 0) ∧
    (∀ (parse : String → Option ℚ) x, cellIo parse x = cellMain parse x) ∧
    (∀ (parse : String → Option ℚ) lines,
        (read_sample_table parse lines).isOk = !lines.isEmpty) ∧
    (∀ (p1 p2 : String → Option ℚ) lines,
        (read_sample_table_main p1 lines).isOk =
          (read_sample_table_main p2 lines).isOk) := by
  refine ⟨?_, ?_, ?_, ?_⟩
  · intro parse x h
    constructor <;> simp [cellIo, cellMain, h]
  · intro parse x
    rfl
  · intro parse lines
    cases lines with
    | nil => rfl
    | cons header rest =>
        simp only [read_sample_table, List.isEmpty_cons, Bool.not_false]
        have h := rowsGo_isOk_of_split (cellIo parse) splitTab splitTab_ne_nil rest [] []
        cases hr : rowsGo (cellIo parse) splitTab rest [] [] with
        | error e => rw [hr] at h; cases h
        | ok v => rfl
  · intro p1 p2 lines
    cases lines with
    | nil => rfl
    | cons header rest =>
        simp only [read_sample_table_main]
        have h := rowsGo_isOk_params (cellMain p1) (cellMain p2) splitWs rest [] [] [] []
        cases h1 : rowsGo (cellMain p1) splitWs rest [] [] with
        | error e =>
            cases h2 : rowsGo (cellMain p2) splitWs rest [] [] with
            | error e2 => rfl
            | ok v2 => rw [h1, h2] at h; cases h
        | ok v =>
            cases h2 : rowsGo (cellMain p2) splitWs rest [] [] with
            | error e2 => rw [h1, h2] at h; cases h
            | ok v2 => rfl

/-- C10 witness: a cell that fails to parse is binarised to zero in both
readers. -/
theorem claim_c10_w :
    cellIo (fun _ => none) "zz" = 0 ∧ cellMain (fun _ => none) "zz" = 0 :=
  claim_c10.1 (fun _ => none) "zz" rfl

/-- C7 counterexample: on a leaf name absent from the taxa order,
`get_sample_vec` panics (the modelled `unwrap()` of a failed `position`
lookup) instead of returning a data-inconsistency error value. -/
theorem claim_c7_cex :
    get_sample_vec (fun _ _ => 0) [] [] ["X"] 0 = .error .panicked ∧
      Err.panicked.isPanic = true :=
  ⟨rfl, rfl⟩

/-- C7 (amended): whenever some leaf name of the pruned tree does not occur
in the taxa order (and the presence matrix is wide enough that no earlier
indexing panics first), `get_sample_vec` panics via `unwrap()` — it does not
return an error value. -/
theorem claim_c7_amended (mat : Nat → Nat → ℕ) (pm : List (List ℚ))
    (taxa lns : List String) (sidx : Nat)
    (hpm : ∀ tIdx, tIdx < taxa.length →
      ∃ row v, lget pm tIdx = some row ∧ lget row sidx = some v)
    (hex : ∃ nm ∈ lns, sidxOf taxa nm = none) :
    get_sample_vec mat pm taxa lns sidx = .error .panicked := by
  unfold get_sample_vec
  rw [gsvGo_panics mat pm taxa sidx hpm lns 0 (fun _ => 0) hex]

/-- C7 witness: the amended theorem applied to a concrete missing leaf
name. -/
theorem claim_c7_amended_w :
    get_sample_vec (fun _ _ => 0) [[1]] ["A"] ["A", "X"] 0 = .error .panicked :=
  claim_c7_amended (fun _ _ => 0) [[1]] ["A"] ["A", "X"] 0
    (by
      intro tIdx h
      cases tIdx with
      | zero => exact ⟨[1], 1, rfl, rfl⟩
      | succ n => simp only [List.length_cons, List.length_nil] at h; omega)
    ⟨"X", by decide, rfl⟩

/-- C1: whenever the per-pair pipeline returns a value and the pruned
subtree's branch-length vector is nonnegative with positive total, the
returned distance lies in the closed interval from 0 to 1 (exact
arithmetic). -/
theorem claim_c1 (t : PTree) (taxa : List String) (pm : List (List ℚ))
    (i j : Nat) (pres : List String) (sub : PTree) (lo : Nat → Nat)
    (lns : List String) (matB : Nat → Nat → ℕ) (brl : Nat → ℚ)
    (pa pb : Nat → ℚ) (d : ℚ)
    (hpt : presentTaxa taxa pm i j = .ok pres)
    (hpl : plGoC pres (leavesIds t) t = .ok sub)
    (hld : leafData sub = .ok (lo, lns))
    (hcb : construct_b sub lo = .ok (matB, brl))
    (hpa : get_sample_vec matB pm taxa lns i = .ok pa)
    (hpb : get_sample_vec matB pm taxa lns j = .ok pb)
    (hnn : ∀ k ∈ Finset.range (sizeT t), 0 ≤ brl k)
    (htot : 0 < arrSum brl (sizeT t))
    (hok : compute_unifrac_for_pair t taxa pm i j = .ok d) :
    0 ≤ d ∧ d ≤ 1 := by
  unfold compute_unifrac_for_pair at hok
  rw [hpt] at hok
  simp only [hpl, hld, hcb, hpa, hpb, Except.ok.injEq] at hok
  subst hok
  have hS0 : 0 ≤ parallel_elementwise_sum pa pb brl (sizeT t) := by
    refine Finset.sum_nonneg fun k hk => ?_
    have h1 : 0 ≤ pa k := by rcases gsv_zero_one hpa k with h | h <;> rw [h] <;> norm_num
    have h2 : 0 ≤ pb k := by rcases gsv_zero_one hpb k with h | h <;> rw [h] <;> norm_num
    exact mul_nonneg (mul_nonneg h1 h2) (hnn k hk)
  have hST : parallel_elementwise_sum pa pb brl (sizeT t) ≤ arrSum brl (sizeT t) := by
    refine Finset.sum_le_sum fun k hk => ?_
    have hb := hnn k hk
    rcases gsv_zero_one hpa k with h1 | h1 <;> rcases gsv_zero_one hpb k with h2 | h2 <;>
      rw [h1, h2] <;> simpa using hb
  constructor
  · have h1 : parallel_elementwise_sum pa pb brl (sizeT t) / arrSum brl (sizeT t) ≤ 1 :=
      (div_le_one htot).mpr hST
    linarith
  · have h2 : 0 ≤ parallel_elementwise_sum pa pb brl (sizeT t) / arrSum brl (sizeT t) :=
      div_nonneg hS0 htot.le
    linarith

/-- C1 witness: the theorem applied to the concrete four-taxon pair, whose
distance is 2/3. -/
theorem claim_c1_w : 0 ≤ exC2d ∧ exC2d ≤ 1 := by
  refine claim_c1 exC2t exC2x exC2pm 0 1 exC2pres exC2sub exC2ld.1 exC2ld.2
    exC2cb.1 exC2cb.2 exC2pa exC2pb exC2d rfl rfl rfl rfl rfl rfl ?_ ?_ rfl
  · decide
  · simp [exC2cb, exC2sub, exC2pres, exC2ld, okStrs, okTree, okCB, okLD,
      presentTaxa, ptGo, lget, plGoC, findT, findTL, PTree.rid, PTree.rname,
      PTree.kids, PTree.rplen, strMem, leavesIds, leafInfo, leafInfoL,
      leafData, ldGo, construct_b, cbRun, cbStep, mergeRows, PTree.post,
      PTree.postL, arrSum, sizeT, Finset.sum_range_succ, exC2t, exC2x, exC2pm]
    norm_num

/-- C3: on a pair whose pruned subtree has zero total branch length the
code performs no check at all: it returns `Ok(1 - shared/total)`
unconditionally.  In Rust this is `Ok(0.0/0.0) = Ok(NaN)`, silently stored
in the matrix; in the exact model the same run returns `Ok 1`.  Either way
no error is detected or propagated. -/
theorem claim_c3 : compute_unifrac_for_pair exC3t exC3x exC3pm 0 1 = .ok 1 := by
  simp [compute_unifrac_for_pair, presentTaxa, ptGo, lget, plGoC, findT,
    findTL, PTree.rid, PTree.rname, PTree.rplen, PTree.kids, strMem,
    leavesIds, leafInfo, leafInfoL, leafData, ldGo, construct_b, cbRun,
    cbStep, mergeRows, PTree.post, PTree.postL, get_sample_vec, gsvGo,
    sidxOf, parallel_elementwise_sum, arrSum, sizeT, Finset.sum_range_succ,
    exC3t, exC3x, exC3pm]

/-- C2 counterexample: samples with disjoint present-taxa sets on
`((T1:1,T3:1):5,(T2:1,T4:1):5)` — `{T1,T2}` versus `{T3,T4}` — share the two
internal branches of length 5, so the distance is `1 - 10/14 = 2/7`, not 1,
and the shared branch length is 10, not 0. -/
theorem claim_c2_cex :
    compute_unifrac_for_pair exC2t exC2x exC2pm 0 1 = .ok (2/7) ∧
      ((2 : ℚ)/7) ≠ 1 := by
  constructor
  · simp [compute_unifrac_for_pair, presentTaxa, ptGo, lget, plGoC, findT,
      findTL, PTree.rid, PTree.rname, PTree.rplen, PTree.kids, strMem,
      leavesIds, leafInfo, leafInfoL, leafData, ldGo, construct_b, cbRun,
      cbStep, mergeRows, PTree.post, PTree.postL, get_sample_vec, gsvGo,
      sidxOf, parallel_elementwise_sum, arrSum, sizeT, Finset.sum_range_succ,
      exC2t, exC2x, exC2pm]
    norm_num
  · norm_num

/-- C8 counterexample: identical presence columns on a tree whose branch
lengths are all absent (total 0) yield `shared = total = 0` but distance
`1 - 0/0`, which is `NaN` in Rust and 1 in the exact model — not 0. -/
theorem claim_c8_cex :
    compute_unifrac_for_pair exC8t exC8x exC8pm 0 1 = .ok 1 ∧ (1 : ℚ) ≠ 0 := by
  constructor
  · simp [compute_unifrac_for_pair, presentTaxa, ptGo, lget, plGoC, findT,
      findTL, PTree.rid, PTree.rname, PTree.rplen, PTree.kids, strMem,
      leavesIds, leafInfo, leafInfoL, leafData, ldGo, construct_b, cbRun,
      cbStep, mergeRows, PTree.post, PTree.postL, get_sample_vec, gsvGo,
      sidxOf, parallel_elementwise_sum, arrSum, sizeT, Finset.sum_range_succ,
      exC8t, exC8x, exC8pm]
  · norm_num

/-- C4 counterexample: on `((l1:1,l2:1)P:1,A:1,B:1)` with both of `P`'s
leaves pruned, the compress-after-prune pipeline (compute.rs) discards `P`'s
branch and returns 1/2, while the no-compress pipeline (main.rs) keeps the
stale branch of `P` in the total and returns 2/3. -/
theorem claim_c4_cex :
    compute_unifrac_for_pair exC4t exC4x exC4pm 0 1 = .ok (1/2) ∧
      compute_unifrac_for_pair_main exC4t exC4x exC4pm 0 1 = .ok (2/3) ∧
      ((1 : ℚ)/2) ≠ 2/3 := by
  refine ⟨?_, ?_, by norm_num⟩
  · simp [compute_unifrac_for_pair, presentTaxa, ptGo, lget, plGoC, findT,
      findTL, PTree.rid, PTree.rname, PTree.rplen, PTree.kids, strMem, prune,
      removeIn, removeInL, leavesIds, leafInfo, leafInfoL, compress,
      compressL, leafData, ldGo, construct_b, cbRun, cbStep, mergeRows,
      PTree.post, PTree.postL, get_sample_vec, gsvGo, sidxOf,
      parallel_elementwise_sum, arrSum, sizeT, Finset.sum_range_succ, exC4t,
      exC4x, exC4pm]
    norm_num
  · simp [compute_unifrac_for_pair_main, presentTaxa, ptGo, lget, plGoM,
      findT, findTL, PTree.rid, PTree.rname, PTree.rplen, PTree.kids, strMem,
      prune, removeIn, removeInL, leavesIds, leafInfo, leafInfoL, leafData,
      ldGo, construct_b, cbRun, cbStep, mergeRows, PTree.post, PTree.postL,
      get_sample_vec, gsvGo, sidxOf, parallel_elementwise_sum, arrSum, sizeT,
      Finset.sum_range_succ, exC4t, exC4x, exC4pm]
    norm_num

/-- Whenever every leaf of the tree passes the keep check, both pruning
loops leave the tree untouched. -/
theorem plGo_keep_all (keep : List String) :
    ∀ (L : List Nat) (cur : PTree),
      (∀ l ∈ L, leafKeptB keep cur l = true) →
      plGoC keep L cur = .ok cur ∧ plGoM keep L cur = .ok cur := by
  intro L
  induction L with
  | nil => intro cur _; exact ⟨rfl, rfl⟩
  | cons l rest ih =>
      intro cur h
      have hl := h l (List.mem_cons_self l rest)
      have hrest := fun l' hl' => h l' (List.mem_cons_of_mem l hl')
      cases hf : findT cur l with
      | none =>
          simp only [leafKeptB, hf] at hl
          exact absurd hl (by decide)
      | some nd =>
          cases hn : nd.rname with
          | none =>
              simp only [leafKeptB, hf, hn] at hl
              exact absurd hl (by decide)
          | some nm =>
              simp only [leafKeptB, hf, hn] at hl
              constructor
              · simp [plGoC, hf, hn, hl]
                exact (ih cur hrest).1
              · simp [plGoM, hf, hn, hl]
                exact (ih cur hrest).2

/-- C4 (amended): as shown by the counterexample the two pipelines can
disagree once pruning strips a whole internal subtree; they do agree
whenever no leaf is pruned, because they differ only in the prune loop. -/
theorem claim_c4_amended (t : PTree) (taxa : List String)
    (pm : List (List ℚ)) (i j : Nat) (pres : List String)
    (hpt : presentTaxa taxa pm i j = .ok pres)
    (hall : ∀ l ∈ leavesIds t, leafKeptB pres t l = true) :
    compute_unifrac_for_pair t taxa pm i j =
      compute_unifrac_for_pair_main t taxa pm i j := by
  obtain ⟨h1, h2⟩ := plGo_keep_all pres (leavesIds t) t hall
  unfold compute_unifrac_for_pair compute_unifrac_for_pair_main
  simp only [hpt, h1, h2]

/-- C4 witness: on the two-taxon star pair nothing is pruned and both
pipelines agree. -/
theorem claim_c4_amended_w :
    compute_unifrac_for_pair exStar exStarx exStarpm 0 1 =
      compute_unifrac_for_pair_main exStar exStarx exStarpm 0 1 :=
  claim_c4_amended exStar exStarx exStarpm 0 1
    (okStrs (presentTaxa exStarx exStarpm 0 1)) rfl (by decide)

/-! ## Structural lemmas about the tree model -/

mutual
/-- The leaf ids of a tree form a sublist of its postorder. -/
theorem leaf_fst_sublist : ∀ t : PTree, ((leafInfo t).map Prod.fst).Sublist (PTree.post t)
  | .node i nm pl [] => by
      simp [leafInfo, PTree.post, PTree.postL]
  | .node i nm pl (c :: cs) => by
      have h := leaf_fstL_sublist (c :: cs)
      simp only [leafInfo, PTree.post]
      exact h.trans (List.sublist_append_left _ _)
/-- The leaf ids of a forest form a sublist of its postorder. -/
theorem leaf_fstL_sublist : ∀ cs : List PTree, ((leafInfoL cs).map Prod.fst).Sublist (PTree.postL cs)
  | [] => by simp [leafInfoL, PTree.postL]
  | c :: cs => by
      simp only [leafInfoL, PTree.postL, List.map_append]
      exact (leaf_fst_sublist c).append (leaf_fstL_sublist cs)
end

/-- Leaf ids lie in the postorder. -/
theorem leaf_mem_post {t : PTree} {p : Nat × Option String} (hp : p ∈ leafInfo t) :
    p.1 ∈ PTree.post t :=
  (leaf_fst_sublist t).mem (List.mem_map_of_mem Prod.fst hp)

/-- The root id is the last postorder entry. -/
theorem rid_mem_post (t : PTree) : t.rid ∈ PTree.post t := by
  cases t with
  | node i nm pl cs => simp [PTree.post, PTree.rid]

mutual
/-- Path elements lie in the postorder. -/
theorem pathTo_sub_post : ∀ (t : PTree) (k x : Nat), x ∈ pathTo t k → x ∈ PTree.post t
  | .node i nm pl cs, k, x => by
      intro hx
      simp only [pathTo] at hx
      by_cases hik : i = k
      · rw [if_pos hik] at hx
        simp only [List.mem_singleton] at hx
        rw [hx]
        exact rid_mem_post (.node i nm pl cs)
      · rw [if_neg hik] at hx
        cases hp : pathToL cs k with
        | nil => rw [hp] at hx; cases hx
        | cons a p =>
            rw [hp] at hx
            simp only [PTree.post, List.mem_append]
            rcases List.mem_cons.mp hx with rfl | hx'
            · simp
            · exact Or.inl (pathToL_sub_postL cs k x (hp ▸ hx'))
/-- Path elements lie in the forest postorder. -/
theorem pathToL_sub_postL : ∀ (cs : List PTree) (k x : Nat), x ∈ pathToL cs k → x ∈ PTree.postL cs
  | [], k, x => by intro hx; cases hx
  | c :: cs, k, x => by
      intro hx
      simp only [pathToL] at hx
      simp only [PTree.postL, List.mem_append]
      cases hp : pathTo c k with
      | nil => rw [hp] at hx; exact Or.inr (pathToL_sub_postL cs k x hx)
      | cons a p => rw [hp] at hx; exact Or.inl (pathTo_sub_post c k x (hp ▸ hx))
end

mutual
/-- The path to an id is empty exactly when the id is not in the tree. -/
theorem pathTo_eq_nil : ∀ (t : PTree) (k : Nat), pathTo t k = [] ↔ k ∉ PTree.post t
  | .node i nm pl cs, k => by
      simp only [pathTo, PTree.post, List.mem_append, List.mem_singleton]
      by_cases hik : i = k
      · subst hik
        simp
      · rw [if_neg hik]
        cases hp : pathToL cs k with
        | nil =>
            have := (pathToL_eq_nil cs k).mp hp
            simp [this, Ne.symm hik]
        | cons a p =>
            have : ¬ pathToL cs k = [] := by rw [hp]; simp
            have hk := (pathToL_eq_nil cs k).not.mp this
            push_neg at hk
            simp [hk, Ne.symm hik]
/-- Forest version of `pathTo_eq_nil`. -/
theorem pathToL_eq_nil : ∀ (cs : List PTree) (k : Nat), pathToL cs k = [] ↔ k ∉ PTree.postL cs
  | [], k => by simp [pathToL, PTree.postL]
  | c :: cs, k => by
      simp only [pathToL, PTree.postL, List.mem_append]
      cases hp : pathTo c k with
      | nil =>
          have h1 := (pathTo_eq_nil c k).mp hp
          simp only [h1, false_or]
          exact pathToL_eq_nil cs k
      | cons a p =>
          have : ¬ pathTo c k = [] := by rw [hp]; simp
          have hk := (pathTo_eq_nil c k).not.mp this
          push_neg at hk
          simp [hk]
end

mutual
/-- Looking up an id that is not in the tree yields `none`. -/
theorem findT_eq_none : ∀ (t : PTree) (k : Nat), k ∉ PTree.post t → findT t k = none
  | .node i nm pl cs, k => by
      intro hk
      simp only [PTree.post, List.mem_append, List.mem_singleton] at hk
      push_neg at hk
      simp only [findT]
      rw [if_neg (fun h => hk.2 h.symm)]
      exact findTL_eq_none cs k hk.1
/-- Forest version of `findT_eq_none`. -/
theorem findTL_eq_none : ∀ (cs : List PTree) (k : Nat), k ∉ PTree.postL cs → findTL cs k = none
  | [], k => by intro _; rfl
  | c :: cs, k => by
      intro hk
      simp only [PTree.postL, List.mem_append] at hk
      push_neg at hk
      simp only [findTL, findT_eq_none c k hk.1]
      exact findTL_eq_none cs k hk.2
end

mutual
/-- The postorder of any subtree is an infix of the tree's postorder. -/
theorem sub_post_within : ∀ (t s : PTree), s ∈ subAll t → (PTree.post s).IsInfix (PTree.post t)
  | .node i nm pl cs, s => by
      intro hs
      simp only [subAll, List.mem_cons] at hs
      rcases hs with rfl | hs
      · exact List.infix_refl _
      · have h := subL_post_within cs s hs
        simp only [PTree.post]
        exact h.trans ⟨[], [i], by simp⟩
/-- The postorder of any member of a forest's subtree list is an infix of
the forest postorder. -/
theorem subL_post_within : ∀ (cs : List PTree) (s : PTree), s ∈ subAllL cs →
    (PTree.post s).IsInfix (PTree.postL cs)
  | [], s => by intro hs; cases hs
  | c :: cs, s => by
      intro hs
      simp only [subAllL, List.mem_append] at hs
      simp only [PTree.postL]
      rcases hs with hs | hs
      · exact (sub_post_within c s hs).trans ⟨[], PTree.postL cs, by simp⟩
      · exact (subL_post_within cs s hs).trans ⟨PTree.post c, [], by simp⟩
end

/-- Every tree is among its own subtrees. -/
theorem mem_subAll_self (t : PTree) : t ∈ subAll t := by
  cases t with
  | node i nm pl cs => simp [subAll]

/-- A forest member is among the forest's subtrees. -/
theorem mem_subAllL_of_mem : ∀ (cs : List PTree) (c : PTree), c ∈ cs → c ∈ subAllL cs := by
  intro cs
  induction cs with
  | nil => intro c hc; cases hc
  | cons a rest ih =>
      intro c hc
      simp only [subAllL, List.mem_append]
      rcases List.mem_cons.mp hc with rfl | hc'
      · exact Or.inl (mem_subAll_self c)
      · exact Or.inr (ih c hc')

mutual
/-- Subtree containment is transitive at the level of subtree lists. -/
theorem subAll_trans : ∀ (t s : PTree), s ∈ subAll t → ∀ x ∈ subAll s, x ∈ subAll t
  | .node i nm pl cs, s => by
      intro hs x hx
      simp only [subAll, List.mem_cons] at hs ⊢
      rcases hs with rfl | hs
      · simpa [subAll] using hx
      · exact Or.inr (subAllL_trans cs s hs x hx)
/-- Forest version of `subAll_trans`. -/
theorem subAllL_trans : ∀ (cs : List PTree) (s : PTree), s ∈ subAllL cs →
    ∀ x ∈ subAll s, x ∈ subAllL cs
  | [], s => by intro hs; cases hs
  | c :: cs, s => by
      intro hs x hx
      simp only [subAllL, List.mem_append] at hs ⊢
      rcases hs with hs | hs
      · exact Or.inl (subAll_trans c s hs x hx)
      · exact Or.inr (subAllL_trans cs s hs x hx)
end

/-- Children are subtrees. -/
theorem kid_mem_subAll (t : PTree) (c : PTree) (hc : c ∈ t.kids) : c ∈ subAll t := by
  cases t with
  | node i nm pl cs =>
      simp only [PTree.kids] at hc
      simp only [subAll, List.mem_cons]
      exact Or.inr (mem_subAllL_of_mem cs c hc)

mutual
/-- Leaves of a subtree are leaves of the tree. -/
theorem leafInfo_subAll : ∀ (t s : PTree), s ∈ subAll t → ∀ p ∈ leafInfo s, p ∈ leafInfo t
  | .node i nm pl cs, s => by
      intro hs p hp
      simp only [subAll, List.mem_cons] at hs
      rcases hs with rfl | hs
      · exact hp
      · cases cs with
        | nil => cases hs
        | cons c rest =>
            simp only [leafInfo]
            exact leafInfoL_subAll (c :: rest) s hs p hp
/-- Forest version of `leafInfo_subAll`. -/
theorem leafInfoL_subAll : ∀ (cs : List PTree) (s : PTree), s ∈ subAllL cs →
    ∀ p ∈ leafInfo s, p ∈ leafInfoL cs
  | [], s => by intro hs; cases hs
  | c :: cs, s => by
      intro hs p hp
      simp only [subAllL, List.mem_append] at hs
      simp only [leafInfoL, List.mem_append]
      rcases hs with hs | hs
      · exact Or.inl (leafInfo_subAll c s hs p hp)
      · exact Or.inr (leafInfoL_subAll cs s hs p hp)
end

mutual
/-- Every leaf entry is realised by a childless subtree with that id and
name. -/
theorem tip_mem_subAll : ∀ (t : PTree), ∀ p ∈ leafInfo t,
    ∃ pl, PTree.node p.1 p.2 pl [] ∈ subAll t
  | .node i nm pl [] => by
      intro p hp
      simp only [leafInfo, List.mem_singleton] at hp
      subst hp
      exact ⟨pl, mem_subAll_self _⟩
  | .node i nm pl (c :: cs) => by
      intro p hp
      simp only [leafInfo] at hp
      obtain ⟨pl', h⟩ := tip_mem_subAllL (c :: cs) p hp
      exact ⟨pl', by simp only [subAll, List.mem_cons]; exact Or.inr h⟩
/-- Forest version of `tip_mem_subAll`. -/
theorem tip_mem_subAllL : ∀ (cs : List PTree), ∀ p ∈ leafInfoL cs,
    ∃ pl, PTree.node p.1 p.2 pl [] ∈ subAllL cs
  | [] => by intro p hp; cases hp
  | c :: cs => by
      intro p hp
      simp only [leafInfoL, List.mem_append] at hp
      simp only [subAllL]
      rcases hp with hp | hp
      · obtain ⟨pl', h⟩ := tip_mem_subAll c p hp
        exact ⟨pl', List.mem_append.mpr (Or.inl h)⟩
      · obtain ⟨pl', h⟩ := tip_mem_subAllL cs p hp
        exact ⟨pl', List.mem_append.mpr (Or.inr h)⟩
end

mutual
/-- Under distinct postorder ids, looking up a subtree's root id finds that
subtree. -/
theorem find_sub : ∀ (t : PTree), (PTree.post t).Nodup → ∀ s ∈ subAll t, findT t s.rid = some s
  | .node i nm pl cs => by
      intro hnd s hs
      simp only [subAll, List.mem_cons] at hs
      have hnd' : (PTree.postL cs).Nodup ∧ ∀ x ∈ PTree.postL cs, x ∉ [i] := by
        have h := List.nodup_append.mp (by simpa [PTree.post] using hnd)
        exact ⟨h.1, h.2.2⟩
      rcases hs with rfl | hs
      · simp [findT, PTree.rid]
      · have hrid : s.rid ∈ PTree.postL cs :=
          (subL_post_within cs s hs).sublist.mem (rid_mem_post s)
        have hne : i ≠ s.rid := by
          intro h
          exact (hnd'.2 s.rid hrid) (by simp [h])
        simp only [findT]
        rw [if_neg hne]
        exact findL_sub cs hnd'.1 s hs
/-- Forest version of `find_sub`. -/
theorem findL_sub : ∀ (cs : List PTree), (PTree.postL cs).Nodup →
    ∀ s ∈ subAllL cs, findTL cs s.rid = some s
  | [] => by intro _ s hs; cases hs
  | c :: cs => by
      intro hnd s hs
      simp only [subAllL, List.mem_append] at hs
      have h := List.nodup_append.mp (by simpa [PTree.postL] using hnd)
      rcases hs with hs | hs
      · simp only [findTL, find_sub c h.1 s hs]
      · have hrid : s.rid ∈ PTree.postL cs :=
          (subL_post_within cs s hs).sublist.mem (rid_mem_post s)
        have hnc : s.rid ∉ PTree.post c := fun hmem => h.2.2 hmem hrid
        simp only [findTL, findT_eq_none c s.rid hnc]
        exact findL_sub cs h.2.1 s hs
end

mutual
/-- A tree always has a leaf. -/
theorem leafInfo_ne_nil : ∀ t : PTree, leafInfo t ≠ []
  | .node i nm pl [] => by simp [leafInfo]
  | .node i nm pl (c :: cs) => by
      simp only [leafInfo]
      exact leafInfoL_ne_nil c cs
/-- A nonempty forest has a leaf. -/
theorem leafInfoL_ne_nil : ∀ (c : PTree) (cs : List PTree), leafInfoL (c :: cs) ≠ []
  | c, cs => by
      simp only [leafInfoL, ne_eq, List.append_eq_nil]
      intro h
      exact leafInfo_ne_nil c h.1
end

mutual
/-- Under distinct ids, every node of the tree lies on the path to some
leaf. -/
theorem desc_leaf : ∀ (t : PTree), (PTree.post t).Nodup →
    ∀ k ∈ PTree.post t, ∃ p ∈ leafInfo t, k ∈ pathTo t p.1
  | .node i nm pl cs => by
      intro hnd k hk
      have hnd2 := List.nodup_append.mp (by simpa [PTree.post] using hnd)
      have hiot : i ∉ PTree.postL cs := fun hmem => hnd2.2.2 hmem (by simp)
      simp only [PTree.post, List.mem_append, List.mem_singleton] at hk
      rcases hk with hk | rfl
      · cases cs with
        | nil => cases hk
        | cons c rest =>
            obtain ⟨p, hp, hpath⟩ := desc_leafL (c :: rest) hnd2.1 k hk
            refine ⟨p, by simpa [leafInfo] using hp, ?_⟩
            have hp1 : p.1 ∈ PTree.postL (c :: rest) :=
              (leaf_fstL_sublist (c :: rest)).mem (List.mem_map_of_mem Prod.fst hp)
            have hne : i ≠ p.1 := fun h => hiot (h ▸ hp1)
            have hpne : pathToL (c :: rest) p.1 ≠ [] := by
              intro hnil
              exact (pathToL_eq_nil (c :: rest) p.1).mp hnil hp1
            simp only [pathTo, if_neg hne]
            cases hq : pathToL (c :: rest) p.1 with
            | nil => exact absurd hq hpne
            | cons a q =>
                rw [hq] at hpath
                exact List.mem_cons_of_mem i hpath
      · cases cs with
        | nil =>
            refine ⟨(k, nm), by simp [leafInfo], ?_⟩
            simp [pathTo]
        | cons c rest =>
            have hne := leafInfoL_ne_nil c rest
            cases hli : leafInfoL (c :: rest) with
            | nil => exact absurd hli hne
            | cons p ps =>
                refine ⟨p, by simp [leafInfo, hli], ?_⟩
                have hp1 : p.1 ∈ PTree.postL (c :: rest) :=
                  (leaf_fstL_sublist (c :: rest)).mem
                    (List.mem_map_of_mem Prod.fst (by simp [hli]))
                have hne2 : k ≠ p.1 := fun h => hiot (h ▸ hp1)
                have hpne : pathToL (c :: rest) p.1 ≠ [] := by
                  intro hnil
                  exact (pathToL_eq_nil (c :: rest) p.1).mp hnil hp1
                simp only [pathTo, if_neg hne2]
                cases hq : pathToL (c :: rest) p.1 with
                | nil => exact absurd hq hpne
                | cons a q => exact List.mem_cons_self _ _
/-- Forest version of `desc_leaf`. -/
theorem desc_leafL : ∀ (cs : List PTree), (PTree.postL cs).Nodup →
    ∀ k ∈ PTree.postL cs, ∃ p ∈ leafInfoL cs, k ∈ pathToL cs p.1
  | [] => by intro _ k hk; cases hk
  | c :: cs => by
      intro hnd k hk
      have hnd2 := List.nodup_append.mp (by simpa [PTree.postL] using hnd)
      simp only [PTree.postL, List.mem_append] at hk
      rcases hk with hk | hk
      · obtain ⟨p, hp, hpath⟩ := desc_leaf c hnd2.1 k hk
        refine ⟨p, by simp [leafInfoL, hp], ?_⟩
        have hpne : pathTo c p.1 ≠ [] := fun hnil => (by
          have hp1 : p.1 ∈ PTree.post c :=
            (leaf_fst_sublist c).mem (List.mem_map_of_mem Prod.fst hp)
          exact (pathTo_eq_nil c p.1).mp hnil hp1)
        simp only [pathToL]
        cases hq : pathTo c p.1 with
        | nil => exact absurd hq hpne
        | cons a q => rw [hq] at hpath; exact hpath
      · obtain ⟨p, hp, hpath⟩ := desc_leafL cs hnd2.2.1 k hk
        refine ⟨p, by simp [leafInfoL, hp], ?_⟩
        have hp1 : p.1 ∈ PTree.postL cs :=
          (leaf_fstL_sublist cs).mem (List.mem_map_of_mem Prod.fst hp)
        have hpc : p.1 ∉ PTree.post c := fun hmem => hnd2.2.2 hmem hp1
        have hnilc : pathTo c p.1 = [] := (pathTo_eq_nil c p.1).mpr hpc
        simp only [pathToL, hnilc]
        exact hpath
end

/-! ## List-indexing lemmas for the model's own `lget` -/

/-- `lget` finds members. -/
theorem lget_mem {α : Type} : ∀ (l : List α) (n : Nat) (x : α), lget l n = some x → x ∈ l := by
  intro l
  induction l with
  | nil => intro n x h; cases h
  | cons a rest ih =>
      intro n x h
      cases n with
      | zero => cases h; exact List.mem_cons_self _ _
      | succ m => exact List.mem_cons_of_mem a (ih m x h)

/-- Members are found by `lget`. -/
theorem mem_lget {α : Type} : ∀ (l : List α) (x : α), x ∈ l → ∃ n, lget l n = some x := by
  intro l
  induction l with
  | nil => intro x h; cases h
  | cons a rest ih =>
      intro x h
      rcases List.mem_cons.mp h with rfl | h'
      · exact ⟨0, rfl⟩
      · obtain ⟨n, hn⟩ := ih x h'
        exact ⟨n + 1, hn⟩

/-- A successful `lget` index is in range. -/
theorem lget_lt_length {α : Type} : ∀ (l : List α) (n : Nat) (x : α),
    lget l n = some x → n < l.length := by
  intro l
  induction l with
  | nil => intro n x h; cases h
  | cons a rest ih =>
      intro n x h
      cases n with
      | zero => simp
      | succ m => exact Nat.succ_lt_succ (ih m x h)

/-- `lget` inside the left part of an append. -/
theorem lget_append_left {α : Type} : ∀ (l₁ l₂ : List α) (n : Nat) (x : α),
    lget l₁ n = some x → lget (l₁ ++ l₂) n = some x := by
  intro l₁
  induction l₁ with
  | nil => intro l₂ n x h; cases h
  | cons a rest ih =>
      intro l₂ n x h
      cases n with
      | zero => exact h
      | succ m => exact ih l₂ m x h

/-- `lget` at the junction of an append. -/
theorem lget_append_mid {α : Type} : ∀ (l₁ : List α) (x : α) (l₂ : List α),
    lget (l₁ ++ x :: l₂) l₁.length = some x := by
  intro l₁
  induction l₁ with
  | nil => intro x l₂; rfl
  | cons a rest ih => intro x l₂; exact ih x l₂

/-- `lget` through a `map`. -/
theorem lget_map {α β : Type} (f : α → β) : ∀ (l : List α) (n : Nat),
    lget (l.map f) n = (lget l n).map f := by
  intro l
  induction l with
  | nil => intro n; rfl
  | cons a rest ih =>
      intro n
      cases n with
      | zero => rfl
      | succ m => exact ih m

/-! ## Leaf-ordinal lemmas -/

/-- Full characterisation of the leaf-ordinal loop: the ordinal function
maps the `n`-th processed leaf to `ord + n`, leaves other ids untouched, and
the accumulated names extend the accumulator with each leaf's name. -/
theorem ldGo_spec (t : PTree) : ∀ (L : List Nat) (ord : Nat) (lo0 : Nat → Nat)
    (lns0 : List String) (lo : Nat → Nat) (lns : List String),
    ldGo t L ord lo0 lns0 = .ok (lo, lns) → L.Nodup →
    (∀ n lid, lget L n = some lid → lo lid = ord + n) ∧
    (∀ k, k ∉ L → lo k = lo0 k) ∧
    (∀ m x, lget lns0 m = some x → lget lns m = some x) ∧
    lns.length = lns0.length + L.length ∧
    (∀ n lid, lget L n = some lid →
      ∃ nd nm, findT t lid = some nd ∧ nd.rname = some nm ∧
        lget lns (lns0.length + n) = some nm) := by
  intro L
  induction L with
  | nil =>
      intro ord lo0 lns0 lo lns h _
      simp only [ldGo, Except.ok.injEq] at h
      obtain ⟨rfl, rfl⟩ := Prod.mk.injEq .. ▸ h
      refine ⟨?_, ?_, ?_, by simp, ?_⟩
      · intro n lid hn; cases hn
      · intro k _; rfl
      · intro m x hx; exact hx
      · intro n lid hn; cases hn
  | cons l rest ih =>
      intro ord lo0 lns0 lo lns h hnd
      simp only [ldGo] at h
      cases hf : findT t l with
      | none => rw [hf] at h; cases h
      | some nd =>
          simp only [hf] at h
          cases hn : nd.rname with
          | none => simp only [hn] at h; cases h
          | some nm =>
              simp only [hn] at h
              have hnd' := hnd.of_cons
              have hlr : l ∉ rest := (List.nodup_cons.mp hnd).1
              obtain ⟨ha, hb, hc, hd, he⟩ :=
                ih (ord + 1) (fun k => if k = l then ord else lo0 k)
                  (lns0 ++ [nm]) lo lns h hnd'
              refine ⟨?_, ?_, ?_, ?_, ?_⟩
              · intro n lid hn'
                cases n with
                | zero =>
                    cases hn'
                    have := hb l hlr
                    simpa using this
                | succ m =>
                    have := ha m lid hn'
                    omega
              · intro k hk
                have hk1 : k ≠ l := fun e => hk (e ▸ List.mem_cons_self l rest)
                have hk2 : k ∉ rest := fun e => hk (List.mem_cons_of_mem l e)
                have := hb k hk2
                simpa [hk1] using this
              · intro m x hx
                exact hc m x (lget_append_left lns0 [nm] m x hx)
              · simp only [hd, List.length_append, List.length_cons, List.length_nil]
                omega
              · intro n lid hn'
                cases n with
                | zero =>
                    cases hn'
                    refine ⟨nd, nm, hf, hn, ?_⟩
                    have := hc lns0.length nm (lget_append_mid lns0 nm [])
                    simpa using this
                | succ m =>
                    obtain ⟨nd', nm', h1, h2, h3⟩ := he m lid hn'
                    refine ⟨nd', nm', h1, h2, ?_⟩
                    have : lns0.length + 1 + m = lns0.length + (m + 1) := by omega
                    simpa [this] using h3

/-- Characterisation of `leafData`: ordinals index the leaf enumeration and
`leaf_names` holds each leaf's name. -/
theorem leafData_spec (t : PTree) (lo : Nat → Nat) (lns : List String)
    (h : leafData t = .ok (lo, lns)) (hnd : (leavesIds t).Nodup) :
    (∀ n lid, lget (leavesIds t) n = some lid → lo lid = n) ∧
    lns.length = (leavesIds t).length ∧
    (∀ n lid, lget (leavesIds t) n = some lid →
      ∃ nd nm, findT t lid = some nd ∧ nd.rname = some nm ∧
        lget lns n = some nm) := by
  obtain ⟨ha, _, _, hd, he⟩ := ldGo_spec t (leavesIds t) 0 (fun _ => 0) [] lo lns h hnd
  refine ⟨?_, by simpa using hd, ?_⟩
  · intro n lid hn
    simpa using ha n lid hn
  · intro n lid hn
    simpa using he n lid hn

/-- The leaf-ordinal assignment is injective on the leaves. -/
theorem leafData_inj (t : PTree) (lo : Nat → Nat) (lns : List String)
    (h : leafData t = .ok (lo, lns)) (hnd : (leavesIds t).Nodup) :
    ∀ la ∈ leavesIds t, ∀ lb ∈ leavesIds t, lo la = lo lb → la = lb := by
  intro la hla lb hlb he
  obtain ⟨na, hna⟩ := mem_lget _ la hla
  obtain ⟨nb, hnb⟩ := mem_lget _ lb hlb
  have h1 := (leafData_spec t lo lns h hnd).1 na la hna
  have h2 := (leafData_spec t lo lns h hnd).1 nb lb hnb
  rw [h1, h2] at he
  subst he
  rw [hna] at hnb
  exact Option.some_inj.mp hnb

/-! ## Sample-vector lemmas -/

/-- The accumulation loop computes exactly `gsvSum` on top of the initial
accumulator. -/
theorem gsvGo_char (mat : Nat → Nat → ℕ) (pm : List (List ℚ))
    (taxa : List String) (sidx : Nat) : ∀ (lns : List String) (col : Nat)
    (p0 p : Nat → ℚ), gsvGo mat pm taxa sidx lns col p0 = .ok p →
    ∀ k, p k = p0 k + gsvSum mat pm taxa sidx k lns col := by
  intro lns
  induction lns with
  | nil =>
      intro col p0 p h k
      simp only [gsvGo, Except.ok.injEq] at h
      simp [← h, gsvSum]
  | cons nm rest ih =>
      intro col p0 p h k
      simp only [gsvGo] at h
      cases hs : sidxOf taxa nm with
      | none => rw [hs] at h; cases h
      | some tIdx =>
          simp only [hs] at h
          cases hr : lget pm tIdx with
          | none => simp only [hr] at h; cases h
          | some row =>
              simp only [hr] at h
              cases hv : lget row sidx with
              | none => simp only [hv] at h; cases h
              | some v =>
                  simp only [hv] at h
                  have hpres : presIn pm taxa sidx nm = decide (0 < v) := by
                    simp [presIn, hs, hr, hv]
                  by_cases h0 : 0 < v
                  · rw [if_pos h0] at h
                    have := ih (col + 1) _ p h k
                    rw [this]
                    simp [gsvSum, hpres, h0]
                    ring
                  · rw [if_neg h0] at h
                    have := ih (col + 1) _ p h k
                    rw [this]
                    simp [gsvSum, hpres, h0]

/-- The accumulated contribution is nonnegative. -/
theorem gsvSum_nonneg (mat : Nat → Nat → ℕ) (pm : List (List ℚ))
    (taxa : List String) (sidx : Nat) (k : Nat) :
    ∀ (lns : List String) (col : Nat), 0 ≤ gsvSum mat pm taxa sidx k lns col := by
  intro lns
  induction lns with
  | nil => intro col; simp [gsvSum]
  | cons nm rest ih =>
      intro col
      simp only [gsvSum]
      have h1 : (0:ℚ) ≤ if presIn pm taxa sidx nm then (mat k col : ℚ) else 0 := by
        by_cases h : presIn pm taxa sidx nm = true <;> simp [h]
      have h2 := ih (col + 1)
      linarith

/-- A present leaf column with a nonzero matrix entry makes the
contribution positive. -/
theorem gsvSum_pos_of (mat : Nat → Nat → ℕ) (pm : List (List ℚ))
    (taxa : List String) (sidx : Nat) (k : Nat) :
    ∀ (lns : List String) (col n : Nat) (nm : String),
    lget lns n = some nm → presIn pm taxa sidx nm = true → mat k (col + n) ≠ 0 →
    0 < gsvSum mat pm taxa sidx k lns col := by
  intro lns
  induction lns with
  | nil => intro col n nm h; cases h
  | cons a rest ih =>
      intro col n nm hn hp hm
      simp only [gsvSum]
      cases n with
      | zero =>
          cases hn
          have h1 : (0:ℚ) < (mat k (col + 0) : ℚ) := by
            have := Nat.pos_of_ne_zero hm
            exact_mod_cast this
          have h2 := gsvSum_nonneg mat pm taxa sidx k rest (col + 1)
          rw [Nat.add_zero] at h1
          simp only [hp, if_true]
          linarith
      | succ m =>
          have hshift : col + (m + 1) = (col + 1) + m := by omega
          have h1 := ih (col + 1) m nm hn hp (by rw [← hshift]; exact hm)
          have h2 : (0:ℚ) ≤ if presIn pm taxa sidx a then (mat k col : ℚ) else 0 := by
            by_cases h : presIn pm taxa sidx a = true <;> simp [h]
          linarith

/-- A positive contribution exhibits a present leaf column with a nonzero
matrix entry. -/
theorem exists_of_gsvSum_pos (mat : Nat → Nat → ℕ) (pm : List (List ℚ))
    (taxa : List String) (sidx : Nat) (k : Nat) :
    ∀ (lns : List String) (col : Nat),
    0 < gsvSum mat pm taxa sidx k lns col →
    ∃ n nm, lget lns n = some nm ∧ presIn pm taxa sidx nm = true ∧
      mat k (col + n) ≠ 0 := by
  intro lns
  induction lns with
  | nil => intro col h; simp [gsvSum] at h
  | cons a rest ih =>
      intro col h
      simp only [gsvSum] at h
      by_cases hp : presIn pm taxa sidx a = true
      · by_cases hm : mat k col = 0
        · rw [if_pos hp, hm] at h
          simp only [Nat.cast_zero, zero_add] at h
          obtain ⟨n, nm, h1, h2, h3⟩ := ih (col + 1) h
          exact ⟨n + 1, nm, h1, h2, by rwa [show col + (n + 1) = (col + 1) + n by omega]⟩
        · exact ⟨0, a, rfl, hp, by simpa using hm⟩
      · rw [if_neg hp, zero_add] at h
        obtain ⟨n, nm, h1, h2, h3⟩ := ih (col + 1) h
        exact ⟨n + 1, nm, h1, h2, by rwa [show col + (n + 1) = (col + 1) + n by omega]⟩

/-- The clamped sample vector is the indicator of a positive accumulated
contribution. -/
theorem get_sample_vec_char (mat : Nat → Nat → ℕ) (pm : List (List ℚ))
    (taxa lns : List String) (sidx : Nat) (pa : Nat → ℚ)
    (h : get_sample_vec mat pm taxa lns sidx = .ok pa) :
    ∀ k, pa k = if 0 < gsvSum mat pm taxa sidx k lns 0 then 1 else 0 := by
  unfold get_sample_vec at h
  cases hg : gsvGo mat pm taxa sidx lns 0 (fun _ => 0) with
  | error e => rw [hg] at h; cases h
  | ok p =>
      rw [hg] at h
      simp only [Except.ok.injEq] at h
      subst h
      intro k
      have h1 := gsvGo_char mat pm taxa sidx lns 0 (fun _ => 0) p hg k
      simp only [zero_add] at h1
      simp only [h1]

/-! ## Lemmas about the postorder sweep of `construct_b` -/

/-- Splitting a `cbRun` over an append at a successful intermediate state. -/
theorem cbRun_append_ok (top : PTree) (lo : Nat → Nat) :
    ∀ (a b : List Nat) (st st' : (Nat → Nat → ℕ) × (Nat → ℚ)),
    cbRun top lo a st = .ok st' →
    cbRun top lo (a ++ b) st = cbRun top lo b st' := by
  intro a
  induction a with
  | nil =>
      intro b st st' h
      simp only [cbRun, Except.ok.injEq] at h
      rw [List.nil_append, h]
  | cons idx rest ih =>
      intro b st st' h
      simp only [cbRun] at h ⊢
      cases hs : cbStep top lo st idx with
      | error e => rw [hs] at h; cases h
      | ok st1 =>
          rw [hs] at h
          exact ih b st1 st' h

/-- The row merge leaves every row other than the target untouched. -/
theorem mergeRows_ne (idx : Nat) : ∀ (cids : List Nat) (m : Nat → Nat → ℕ)
    (r c : Nat), r ≠ idx → mergeRows idx m cids r c = m r c := by
  intro cids
  induction cids with
  | nil => intro m r c _; rfl
  | cons cid rest ih =>
      intro m r c hr
      simp only [mergeRows]
      rw [ih _ r c hr]
      simp [if_neg hr]

/-- Value of the merged row: when the children's entries are zeros and ones
with at most one one, and the target row starts consistently, the wrapping
`u8` sum is the indicator of some child entry being one. -/
theorem mergeRows_val (idx : Nat) : ∀ (cids : List Nat), cids.Nodup →
    ∀ (m : Nat → Nat → ℕ) (c : Nat),
    (∀ cid ∈ cids, cid ≠ idx) →
    (∀ cid ∈ cids, m cid c = 0 ∨ m cid c = 1) →
    (∀ x ∈ cids, ∀ y ∈ cids, m x c = 1 → m y c = 1 → x = y) →
    (m idx c = 0 ∨ m idx c = 1) →
    (m idx c = 1 → ∀ cid ∈ cids, m cid c = 0) →
    mergeRows idx m cids idx c =
      if m idx c = 1 ∨ ∃ cid ∈ cids, m cid c = 1 then 1 else 0 := by
  intro cids
  induction cids with
  | nil =>
      intro _ m c _ _ _ hs _
      simp only [mergeRows]
      rcases hs with h | h <;> simp [h]
  | cons cid rest ih =>
      intro hnd m c hni hv hone hs hmix
      simp only [mergeRows]
      set m' : Nat → Nat → ℕ :=
        fun r c' => if r = idx then (m r c' + m cid c') % 256 else m r c' with hm'
      have hcid_nr : cid ∉ rest := (List.nodup_cons.mp hnd).1
      have hm'ne : ∀ x, x ≠ idx → ∀ c', m' x c' = m x c' := by
        intro x hx c'
        simp [hm', if_neg hx]
      have hm'idx : m' idx c = (m idx c + m cid c) % 256 := by simp [hm']
      have hvcid := hv cid (List.mem_cons_self _ _)
      have hrest_ne : ∀ x ∈ rest, x ≠ idx := fun x hx => hni x (List.mem_cons_of_mem _ hx)
      have hval' : m' idx c = if m idx c = 1 ∨ m cid c = 1 then 1 else 0 := by
        rcases hs with h0 | h1
        · rcases hvcid with hc0 | hc1
          · rw [hm'idx, h0, hc0]; norm_num
          · rw [hm'idx, h0, hc1]; norm_num
        · have hc0 := hmix h1 cid (List.mem_cons_self _ _)
          rw [hm'idx, h1, hc0]; norm_num
      have hs' : m' idx c = 0 ∨ m' idx c = 1 := by
        rw [hval']
        by_cases h : m idx c = 1 ∨ m cid c = 1 <;> simp [h]
      have hmix' : m' idx c = 1 → ∀ x ∈ rest, m' x c = 0 := by
        intro h1 x hx
        rw [hval'] at h1
        rw [hm'ne x (hrest_ne x hx)]
        by_cases hcase : m idx c = 1 ∨ m cid c = 1
        · rcases hcase with hA | hB
          · exact hmix hA x (List.mem_cons_of_mem _ hx)
          · rcases hv x (List.mem_cons_of_mem _ hx) with h0 | hx1
            · exact h0
            · have hxc := hone x (List.mem_cons_of_mem _ hx) cid (List.mem_cons_self _ _) hx1 hB
              exact absurd (hxc ▸ hx) hcid_nr
        · rw [if_neg hcase] at h1
          cases h1
      have hres := ih (List.nodup_cons.mp hnd).2 m' c hrest_ne
        (fun x hx => by rw [hm'ne x (hrest_ne x hx)]; exact hv x (List.mem_cons_of_mem _ hx))
        (fun x hx y hy hx1 hy1 => by
          rw [hm'ne x (hrest_ne x hx)] at hx1
          rw [hm'ne y (hrest_ne y hy)] at hy1
          exact hone x (List.mem_cons_of_mem _ hx) y (List.mem_cons_of_mem _ hy) hx1 hy1)
        hs' hmix'
      rw [hres]
      have hiff : (m' idx c = 1 ∨ ∃ x ∈ rest, m' x c = 1) ↔
          (m idx c = 1 ∨ ∃ y ∈ cid :: rest, m y c = 1) := by
        constructor
        · rintro (h1 | ⟨x, hx, hx1⟩)
          · rw [hval'] at h1
            by_cases hcase : m idx c = 1 ∨ m cid c = 1
            · rcases hcase with hA | hB
              · exact Or.inl hA
              · exact Or.inr ⟨cid, List.mem_cons_self _ _, hB⟩
            · rw [if_neg hcase] at h1; cases h1
          · rw [hm'ne x (hrest_ne x hx)] at hx1
            exact Or.inr ⟨x, List.mem_cons_of_mem _ hx, hx1⟩
        · rintro (h1 | ⟨y, hy, hy1⟩)
          · refine Or.inl ?_
            rw [hval']
            simp [h1]
          · rcases List.mem_cons.mp hy with rfl | hy'
            · refine Or.inl ?_
              rw [hval']
              simp [hy1]
            · refine Or.inr ⟨y, hy', ?_⟩
              rw [hm'ne y (hrest_ne y hy')]
              exact hy1
      exact if_congr hiff rfl rfl

/-- A root id of a forest member lies in the forest postorder. -/
theorem rid_map_mem : ∀ (cs : List PTree) (x : Nat),
    x ∈ cs.map PTree.rid → x ∈ PTree.postL cs := by
  intro cs
  induction cs with
  | nil => intro x h; cases h
  | cons c rest ih =>
      intro x h
      simp only [List.map_cons, List.mem_cons] at h
      simp only [PTree.postL, List.mem_append]
      rcases h with rfl | h'
      · exact Or.inl (rid_mem_post c)
      · exact Or.inr (ih x h')

/-- Under distinct postorder ids the root ids of a forest are distinct. -/
theorem rids_nodup : ∀ (cs : List PTree), (PTree.postL cs).Nodup →
    (cs.map PTree.rid).Nodup := by
  intro cs
  induction cs with
  | nil => intro _; simp
  | cons c rest ih =>
      intro hnd
      have h := List.nodup_append.mp (by simpa [PTree.postL] using hnd)
      simp only [List.map_cons, List.nodup_cons]
      refine ⟨?_, ih h.2.1⟩
      intro hmem
      exact h.2.2 (rid_mem_post c) (rid_map_mem rest c.rid hmem)

/-- The forest path to an id present in the forest is the path inside the
first member that contains it. -/
theorem pathL_locate : ∀ (cs : List PTree) (lid : Nat), lid ∈ PTree.postL cs →
    ∃ c' ∈ cs, lid ∈ PTree.post c' ∧ pathToL cs lid = pathTo c' lid := by
  intro cs
  induction cs with
  | nil => intro lid h; cases h
  | cons c rest ih =>
      intro lid hmem
      cases hp : pathTo c lid with
      | nil =>
          have hnc : lid ∉ PTree.post c := (pathTo_eq_nil c lid).mp hp
          have hrest : lid ∈ PTree.postL rest := by
            simp only [PTree.postL, List.mem_append] at hmem
            rcases hmem with h | h
            · exact absurd h hnc
            · exact h
          obtain ⟨c', hc', h1, h2⟩ := ih lid hrest
          exact ⟨c', List.mem_cons_of_mem _ hc', h1, by simp only [pathToL, hp]; exact h2⟩
      | cons a p =>
          have hin : lid ∈ PTree.post c := by
            by_contra hno
            rw [(pathTo_eq_nil c lid).mpr hno] at hp
            cases hp
          exact ⟨c, List.mem_cons_self _ _, hin, by simp only [pathToL, hp]⟩

/-- The root of a subtree lies on the path to any id inside it. -/
theorem path_head : ∀ (c : PTree) (lid : Nat), lid ∈ PTree.post c →
    c.rid ∈ pathTo c lid := by
  intro c lid hmem
  cases c with
  | node j nm pl cs =>
      simp only [pathTo, PTree.rid]
      by_cases hj : j = lid
      · simp [hj]
      · rw [if_neg hj]
        have hkl : lid ∈ PTree.postL cs := by
          simp only [PTree.post, List.mem_append, List.mem_singleton] at hmem
          rcases hmem with h | h
          · exact h
          · exact absurd h.symm hj
        have hne : pathToL cs lid ≠ [] := fun hnil => (pathToL_eq_nil cs lid).mp hnil hkl
        cases hq : pathToL cs lid with
        | nil => exact absurd hq hne
        | cons a q => exact List.mem_cons_self _ _

/-- At most one root id of a forest lies on the path to a given id. -/
theorem child_root_on_path : ∀ (cs : List PTree), (PTree.postL cs).Nodup →
    ∀ (lid x y : Nat), x ∈ cs.map PTree.rid → x ∈ pathToL cs lid →
    y ∈ cs.map PTree.rid → y ∈ pathToL cs lid → x = y := by
  intro cs
  induction cs with
  | nil => intro _ lid x y hx; cases hx
  | cons c rest ih =>
      intro hnd lid x y hx hxp hy hyp
      have h := List.nodup_append.mp (by simpa [PTree.postL] using hnd)
      cases hp : pathTo c lid with
      | nil =>
          simp only [pathToL, hp] at hxp hyp
          have hx' : x ∈ rest.map PTree.rid := by
            rcases List.mem_cons.mp hx with h1 | h'
            · exfalso
              have hxr : x ∈ PTree.postL rest := pathToL_sub_postL rest lid x hxp
              rw [h1] at hxr
              exact h.2.2 (rid_mem_post c) hxr
            · exact h'
          have hy' : y ∈ rest.map PTree.rid := by
            rcases List.mem_cons.mp hy with h1 | h'
            · exfalso
              have hyr : y ∈ PTree.postL rest := pathToL_sub_postL rest lid y hyp
              rw [h1] at hyr
              exact h.2.2 (rid_mem_post c) hyr
            · exact h'
          exact ih h.2.1 lid x y hx' hxp hy' hyp
      | cons a p =>
          simp only [pathToL, hp] at hxp hyp
          rw [← hp] at hxp hyp
          have hxc : x ∈ PTree.post c := pathTo_sub_post c lid x hxp
          have hyc : y ∈ PTree.post c := pathTo_sub_post c lid y hyp
          have hxr : x = c.rid := by
            rcases List.mem_cons.mp hx with h1 | h'
            · exact h1
            · exact absurd hxc (fun hm => h.2.2 hm (rid_map_mem rest x h'))
          have hyr : y = c.rid := by
            rcases List.mem_cons.mp hy with h1 | h'
            · exact h1
            · exact absurd hyc (fun hm => h.2.2 hm (rid_map_mem rest y h'))
          rw [hxr, hyr]

/-- Pointwise-equal predicates give equal `any`. -/
theorem any_congr_mem {α : Type} : ∀ (l : List α) (f g : α → Bool),
    (∀ x ∈ l, f x = g x) → l.any f = l.any g := by
  intro l
  induction l with
  | nil => intro f g _; rfl
  | cons a rest ih =>
      intro f g h
      simp only [List.any_cons]
      rw [h a (List.mem_cons_self _ _), ih f g (fun x hx => h x (List.mem_cons_of_mem _ hx))]

/-- Propositional reading of `hitB`. -/
theorem hitB_iff (lo : Nat → Nat) (s : PTree) (k c : Nat) :
    hitB lo s k c = true ↔ ∃ lid ∈ leavesIds s, lo lid = c ∧ k ∈ pathTo s lid := by
  simp only [hitB, List.any_eq_true, Bool.and_eq_true, beq_iff_eq]
  constructor
  · rintro ⟨lid, hmem, heq, hcont⟩
    exact ⟨lid, hmem, heq, by simpa [List.contains, List.elem_iff] using hcont⟩
  · rintro ⟨lid, hmem, heq, hpath⟩
    exact ⟨lid, hmem, heq, by simpa [List.contains, List.elem_iff] using hpath⟩

/-- Propositional reading of `hitBL`. -/
theorem hitBL_iff (lo : Nat → Nat) (cs : List PTree) (k c : Nat) :
    hitBL lo cs k c = true ↔
      ∃ lid ∈ (leafInfoL cs).map Prod.fst, lo lid = c ∧ k ∈ pathToL cs lid := by
  simp only [hitBL, List.any_eq_true, Bool.and_eq_true, beq_iff_eq]
  constructor
  · rintro ⟨lid, hmem, heq, hcont⟩
    exact ⟨lid, hmem, heq, by simpa [List.contains, List.elem_iff] using hcont⟩
  · rintro ⟨lid, hmem, heq, hpath⟩
    exact ⟨lid, hmem, heq, by simpa [List.contains, List.elem_iff] using hpath⟩

/-- For a row inside the first forest member, the forest hit indicator
coincides with that member's. -/
theorem hitBL_cons_left (lo : Nat → Nat) (c : PTree) (cs : List PTree)
    (k cc : Nat) (hnd : (PTree.postL (c :: cs)).Nodup) (hk : k ∈ PTree.post c) :
    hitBL lo (c :: cs) k cc = hitB lo c k cc := by
  have hd := List.nodup_append.mp (by simpa [PTree.postL] using hnd)
  have hknotcs : k ∉ PTree.postL cs := fun hm => hd.2.2 hk hm
  rw [Bool.eq_iff_iff, hitBL_iff, hitB_iff]
  constructor
  · rintro ⟨lid, hmem, heq, hpath⟩
    simp only [leafInfoL, List.map_append, List.mem_append] at hmem
    rcases hmem with hml | hmr
    · have hlidc : lid ∈ PTree.post c :=
        (leaf_fst_sublist c).mem hml
      have hne : pathTo c lid ≠ [] := fun hnil => (pathTo_eq_nil c lid).mp hnil hlidc
      have hrw : pathToL (c :: cs) lid = pathTo c lid := by
        cases hq : pathTo c lid with
        | nil => exact absurd hq hne
        | cons a p => simp only [pathToL, hq]
      rw [hrw] at hpath
      exact ⟨lid, by simpa [leavesIds] using hml, heq, hpath⟩
    · have hlidcs : lid ∈ PTree.postL cs := (leaf_fstL_sublist cs).mem hmr
      have hlidnc : lid ∉ PTree.post c := fun hm => hd.2.2 hm hlidcs
      have hrw : pathToL (c :: cs) lid = pathToL cs lid := by
        simp only [pathToL, (pathTo_eq_nil c lid).mpr hlidnc]
      rw [hrw] at hpath
      exact absurd (pathToL_sub_postL cs lid k hpath) hknotcs
  · rintro ⟨lid, hmem, heq, hpath⟩
    have hml : lid ∈ (leafInfo c).map Prod.fst := by simpa [leavesIds] using hmem
    have hlidc : lid ∈ PTree.post c := (leaf_fst_sublist c).mem hml
    have hne : pathTo c lid ≠ [] := fun hnil => (pathTo_eq_nil c lid).mp hnil hlidc
    have hrw : pathToL (c :: cs) lid = pathTo c lid := by
      cases hq : pathTo c lid with
      | nil => exact absurd hq hne
      | cons a p => simp only [pathToL, hq]
    refine ⟨lid, ?_, heq, by rw [hrw]; exact hpath⟩
    simp only [leafInfoL, List.map_append, List.mem_append]
    exact Or.inl hml

/-- For a row inside the forest tail, the forest hit indicator coincides
with the tail's. -/
theorem hitBL_cons_right (lo : Nat → Nat) (c : PTree) (cs : List PTree)
    (k cc : Nat) (hnd : (PTree.postL (c :: cs)).Nodup) (hk : k ∈ PTree.postL cs) :
    hitBL lo (c :: cs) k cc = hitBL lo cs k cc := by
  have hd := List.nodup_append.mp (by simpa [PTree.postL] using hnd)
  have hknc : k ∉ PTree.post c := fun hm => hd.2.2 hm hk
  rw [Bool.eq_iff_iff, hitBL_iff, hitBL_iff]
  constructor
  · rintro ⟨lid, hmem, heq, hpath⟩
    simp only [leafInfoL, List.map_append, List.mem_append] at hmem
    rcases hmem with hml | hmr
    · have hlidc : lid ∈ PTree.post c := (leaf_fst_sublist c).mem hml
      have hne : pathTo c lid ≠ [] := fun hnil => (pathTo_eq_nil c lid).mp hnil hlidc
      have hrw : pathToL (c :: cs) lid = pathTo c lid := by
        cases hq : pathTo c lid with
        | nil => exact absurd hq hne
        | cons a p => simp only [pathToL, hq]
      rw [hrw] at hpath
      exact absurd (pathTo_sub_post c lid k hpath) hknc
    · have hlidcs : lid ∈ PTree.postL cs := (leaf_fstL_sublist cs).mem hmr
      have hlidnc : lid ∉ PTree.post c := fun hm => hd.2.2 hm hlidcs
      have hrw : pathToL (c :: cs) lid = pathToL cs lid := by
        simp only [pathToL, (pathTo_eq_nil c lid).mpr hlidnc]
      rw [hrw] at hpath
      exact ⟨lid, hmr, heq, hpath⟩
  · rintro ⟨lid, hmem, heq, hpath⟩
    have hlidcs : lid ∈ PTree.postL cs := (leaf_fstL_sublist cs).mem hmem
    have hlidnc : lid ∉ PTree.post c := fun hm => hd.2.2 hm hlidcs
    have hrw : pathToL (c :: cs) lid = pathToL cs lid := by
      simp only [pathToL, (pathTo_eq_nil c lid).mpr hlidnc]
    refine ⟨lid, ?_, heq, by rw [hrw]; exact hpath⟩
    simp only [leafInfoL, List.map_append, List.mem_append]
    exact Or.inr hmem

mutual
/-- Present ids are found. -/
theorem find_some : ∀ (t : PTree) (k : Nat), k ∈ PTree.post t → ∃ nd, findT t k = some nd
  | .node i nm pl cs, k => by
      intro hk
      simp only [findT]
      by_cases hik : i = k
      · exact ⟨_, by rw [if_pos hik]⟩
      · rw [if_neg hik]
        have hkcs : k ∈ PTree.postL cs := by
          simp only [PTree.post, List.mem_append, List.mem_singleton] at hk
          rcases hk with h | h
          · exact h
          · exact absurd h.symm hik
        exact findL_some cs k hkcs
/-- Forest version of `find_some`. -/
theorem findL_some : ∀ (cs : List PTree) (k : Nat), k ∈ PTree.postL cs →
    ∃ nd, findTL cs k = some nd
  | [], k => by intro hk; cases hk
  | c :: cs, k => by
      intro hk
      simp only [findTL]
      cases hf : findT c k with
      | some nd => exact ⟨nd, rfl⟩
      | none =>
          simp only [PTree.postL, List.mem_append] at hk
          rcases hk with h | h
          · obtain ⟨nd, hnd⟩ := find_some c k h
            rw [hf] at hnd; cases hnd
          · exact findL_some cs k h
end

/-- Hit indicator of an internal node at a non-root row equals the forest
indicator of its children. -/
theorem hitB_node (lo : Nat → Nat) (i : Nat) (nm : Option String)
    (pl : Option ℚ) (c0 : PTree) (crest : List PTree) (k c : Nat)
    (hk : k ≠ i) (hil : i ∉ PTree.postL (c0 :: crest)) :
    hitB lo (.node i nm pl (c0 :: crest)) k c = hitBL lo (c0 :: crest) k c := by
  rw [Bool.eq_iff_iff, hitB_iff, hitBL_iff]
  have hleq : leavesIds (.node i nm pl (c0 :: crest)) =
      (leafInfoL (c0 :: crest)).map Prod.fst := by
    simp [leavesIds, leafInfo]
  constructor
  · rintro ⟨lid, hmem, heq, hpath⟩
    rw [hleq] at hmem
    have hlid : lid ∈ PTree.postL (c0 :: crest) := (leaf_fstL_sublist _).mem hmem
    have hlne : ¬ i = lid := fun h => hil (h ▸ hlid)
    simp only [pathTo, if_neg hlne] at hpath
    cases hq : pathToL (c0 :: crest) lid with
    | nil => rw [hq] at hpath; cases hpath
    | cons a p =>
        rw [hq] at hpath
        rcases List.mem_cons.mp hpath with rfl | hin
        · exact absurd rfl hk
        · exact ⟨lid, hmem, heq, by rw [hq]; exact hin⟩
  · rintro ⟨lid, hmem, heq, hpath⟩
    have hlid : lid ∈ PTree.postL (c0 :: crest) := (leaf_fstL_sublist _).mem hmem
    have hlne : ¬ i = lid := fun h => hil (h ▸ hlid)
    refine ⟨lid, by rw [hleq]; exact hmem, heq, ?_⟩
    simp only [pathTo, if_neg hlne]
    cases hq : pathToL (c0 :: crest) lid with
    | nil => rw [hq] at hpath; cases hpath
    | cons a p =>
        rw [hq] at hpath
        exact List.mem_cons_of_mem i hpath

/-- Hit indicator of an internal node at its own row: some leaf below has
the given ordinal. -/
theorem hitB_node_root (lo : Nat → Nat) (i : Nat) (nm : Option String)
    (pl : Option ℚ) (c0 : PTree) (crest : List PTree) (c : Nat)
    (hil : i ∉ PTree.postL (c0 :: crest)) :
    (hitB lo (.node i nm pl (c0 :: crest)) i c = true ↔
      ∃ lid ∈ (leafInfoL (c0 :: crest)).map Prod.fst, lo lid = c) := by
  rw [hitB_iff]
  have hleq : leavesIds (.node i nm pl (c0 :: crest)) =
      (leafInfoL (c0 :: crest)).map Prod.fst := by
    simp [leavesIds, leafInfo]
  constructor
  · rintro ⟨lid, hmem, heq, -⟩
    exact ⟨lid, hleq ▸ hmem, heq⟩
  · rintro ⟨lid, hmem, heq⟩
    have hlid : lid ∈ PTree.postL (c0 :: crest) := (leaf_fstL_sublist _).mem hmem
    have hlne : ¬ i = lid := fun h => hil (h ▸ hlid)
    refine ⟨lid, hleq ▸ hmem, heq, ?_⟩
    simp only [pathTo, if_neg hlne]
    have hne : pathToL (c0 :: crest) lid ≠ [] :=
      fun hnil => (pathToL_eq_nil _ lid).mp hnil hlid
    cases hq : pathToL (c0 :: crest) lid with
    | nil => exact absurd hq hne
    | cons a p => exact List.mem_cons_self _ _

/-- Branch length read at a non-root id passes to the children. -/
theorem plenAt_node_ne (i : Nat) (nm : Option String) (pl : Option ℚ)
    (cs : List PTree) (k : Nat) (hk : ¬ i = k) :
    plenAt (.node i nm pl cs) k = plenAtL cs k := by
  simp [plenAt, plenAtL, findT, if_neg hk]

/-- Branch length read at the root id. -/
theorem plenAt_node_self (i : Nat) (nm : Option String) (pl : Option ℚ)
    (cs : List PTree) :
    plenAt (.node i nm pl cs) i = pl.getD 0 := by
  simp [plenAt, findT, PTree.rplen]

/-- Branch length over a forest, read inside the first member. -/
theorem plenAtL_cons_left (c : PTree) (cs : List PTree) (k : Nat)
    (hk : k ∈ PTree.post c) : plenAtL (c :: cs) k = plenAt c k := by
  obtain ⟨nd, hnd⟩ := find_some c k hk
  simp [plenAtL, plenAt, findTL, hnd]

/-- Branch length over a forest, read outside the first member. -/
theorem plenAtL_cons_right (c : PTree) (cs : List PTree) (k : Nat)
    (hk : k ∉ PTree.post c) : plenAtL (c :: cs) k = plenAtL cs k := by
  simp [plenAtL, findTL, findT_eq_none c k hk]

mutual
/-- Invariant of the `construct_b` postorder sweep over a subtree of the
pruned tree: starting from zero rows for the subtree, the sweep succeeds,
touches only the subtree's rows and branch entries, fills each row with the
leaf-path hit indicator and each branch entry with the node's parent-edge
length. -/
theorem cb_inv (top : PTree) (lo : Nat → Nat) (hnd : (PTree.post top).Nodup)
    (hinj : ∀ la ∈ leavesIds top, ∀ lb ∈ leavesIds top, lo la = lo lb → la = lb) :
    ∀ (s : PTree), s ∈ subAll top →
    ∀ (m0 : Nat → Nat → ℕ) (b0 : Nat → ℚ),
    (∀ k ∈ PTree.post s, ∀ c, m0 k c = 0) →
    ∃ m1 b1, cbRun top lo (PTree.post s) (m0, b0) = .ok (m1, b1) ∧
      (∀ k c, k ∉ PTree.post s → m1 k c = m0 k c) ∧
      (∀ k, k ∉ PTree.post s → b1 k = b0 k) ∧
      (∀ k ∈ PTree.post s, ∀ c, m1 k c = if hitB lo s k c then 1 else 0) ∧
      (∀ k ∈ PTree.post s, b1 k = plenAt s k)
  | .node i nm pl [] => by
      intro hs m0 b0 hz
      have hfind : findT top i = some (PTree.node i nm pl []) := by
        have h := find_sub top hnd _ hs
        simpa [PTree.rid] using h
      have hpost : PTree.post (PTree.node i nm pl []) = [i] := by
        simp [PTree.post, PTree.postL]
      rw [hpost]
      refine ⟨fun r c => if r = i ∧ c = lo i then 1 else m0 r c,
        fun k => if k = i then pl.getD 0 else b0 k, ?_, ?_, ?_, ?_, ?_⟩
      · simp only [cbRun, cbStep, hfind, PTree.kids, PTree.rplen]
      · intro k c hk
        simp only [List.mem_singleton] at hk
        simp only [if_neg (fun h : k = i ∧ c = lo i => hk h.1)]
      · intro k hk
        simp only [List.mem_singleton] at hk
        simp [hk]
      · intro k hk c
        simp only [List.mem_singleton] at hk
        subst hk
        have hm0 : m0 k c = 0 := hz k (by rw [hpost]; simp) c
        by_cases hc : c = lo k
        · have hhit : hitB lo (.node k nm pl []) k c = true := by
            rw [hitB_iff]
            refine ⟨k, by simp [leavesIds, leafInfo], hc.symm, ?_⟩
            simp [pathTo]
          show (if k = k ∧ c = lo k then 1 else m0 k c) =
            if hitB lo (PTree.node k nm pl []) k c = true then 1 else 0
          rw [if_pos (And.intro rfl hc), hhit]
          simp
        · have hhit : hitB lo (.node k nm pl []) k c = false := by
            rw [Bool.eq_false_iff]
            intro h
            obtain ⟨lid, hmem, heq, -⟩ := (hitB_iff lo _ k c).mp h
            simp only [leavesIds, leafInfo, List.map_cons, List.map_nil,
              List.mem_singleton] at hmem
            subst hmem
            exact hc heq.symm
          show (if k = k ∧ c = lo k then 1 else m0 k c) =
            if hitB lo (PTree.node k nm pl []) k c = true then 1 else 0
          rw [if_neg (fun h : k = k ∧ c = lo k => hc h.2), hhit, hm0]
          simp
      · intro k hk
        simp only [List.mem_singleton] at hk
        subst hk
        simp [plenAt_node_self]
  | .node i nm pl (c0 :: crest) => by
      intro hs m0 b0 hz
      have hinf := sub_post_within top _ hs
      have hnds : (PTree.post (PTree.node i nm pl (c0 :: crest))).Nodup :=
        hnd.sublist hinf.sublist
      have hsplit := List.nodup_append.mp (by simpa [PTree.post] using hnds)
      have hiout : i ∉ PTree.postL (c0 :: crest) := fun hm => hsplit.2.2 hm (by simp)
      have hkmem : ∀ c' ∈ (c0 :: crest), c' ∈ subAll top := by
        intro c' hc'
        exact subAll_trans top _ hs c' (kid_mem_subAll _ c' (by simpa [PTree.kids] using hc'))
      have hpost : PTree.post (PTree.node i nm pl (c0 :: crest)) =
          PTree.postL (c0 :: crest) ++ [i] := by
        simp [PTree.post]
      have hmempost : ∀ k ∈ PTree.postL (c0 :: crest),
          k ∈ PTree.post (PTree.node i nm pl (c0 :: crest)) := by
        intro k hk
        rw [hpost]
        exact List.mem_append.mpr (Or.inl hk)
      have himem : i ∈ PTree.post (PTree.node i nm pl (c0 :: crest)) := by
        rw [hpost]
        exact List.mem_append.mpr (Or.inr (by simp))
      obtain ⟨m2, b2, hrun2, hout2, houtb2, hval2, hbv2⟩ :=
        cbL_inv top lo hnd hinj (c0 :: crest) hkmem hsplit.1 m0 b0
          (fun k hk c => hz k (hmempost k hk) c)
      have hfind : findT top i = some (PTree.node i nm pl (c0 :: crest)) := by
        have h := find_sub top hnd _ hs
        simpa [PTree.rid] using h
      have hleaf_top : ∀ p ∈ leafInfoL (c0 :: crest), p.1 ∈ leavesIds top := by
        intro p hp
        have h1 : p ∈ leafInfo (PTree.node i nm pl (c0 :: crest)) := by
          simpa [leafInfo] using hp
        exact List.mem_map_of_mem Prod.fst (leafInfo_subAll top _ hs p h1)
      have hm2i : ∀ c, m2 i c = 0 := fun c => by
        rw [hout2 i c hiout]
        exact hz i himem c
      have hrid_ne : ∀ x ∈ (c0 :: crest).map PTree.rid, x ≠ i := by
        intro x hx hxi
        exact hiout (hxi ▸ rid_map_mem _ x hx)
      have hchild_val : ∀ x ∈ (c0 :: crest).map PTree.rid, ∀ c,
          m2 x c = if hitBL lo (c0 :: crest) x c then 1 else 0 := by
        intro x hx c
        exact hval2 x (rid_map_mem _ x hx) c
      have hchild_01 : ∀ c, ∀ x ∈ (c0 :: crest).map PTree.rid,
          m2 x c = 0 ∨ m2 x c = 1 := by
        intro c x hx
        rw [hchild_val x hx c]
        by_cases h : hitBL lo (c0 :: crest) x c = true <;> simp [h]
      have hone : ∀ c, ∀ x ∈ (c0 :: crest).map PTree.rid,
          ∀ y ∈ (c0 :: crest).map PTree.rid, m2 x c = 1 → m2 y c = 1 → x = y := by
        intro c x hx y hy hx1 hy1
        rw [hchild_val x hx c] at hx1
        rw [hchild_val y hy c] at hy1
        have hxB : hitBL lo (c0 :: crest) x c = true := by
          by_contra hB
          rw [Bool.not_eq_true] at hB
          rw [hB] at hx1
          cases hx1
        have hyB : hitBL lo (c0 :: crest) y c = true := by
          by_contra hB
          rw [Bool.not_eq_true] at hB
          rw [hB] at hy1
          cases hy1
        obtain ⟨la, hla, hloa, hpa⟩ := (hitBL_iff lo _ x c).mp hxB
        obtain ⟨lb, hlb, hlob, hpb⟩ := (hitBL_iff lo _ y c).mp hyB
        obtain ⟨pa', hpa', rfl⟩ := List.mem_map.mp hla
        obtain ⟨pb', hpb', rfl⟩ := List.mem_map.mp hlb
        have hlab : pa'.1 = pb'.1 :=
          hinj pa'.1 (hleaf_top pa' hpa') pb'.1 (hleaf_top pb' hpb')
            (by rw [hloa, hlob])
        rw [hlab] at hpa
        exact child_root_on_path (c0 :: crest) hsplit.1 pb'.1 x y hx hpa hy hpb
      rw [hpost]
      refine ⟨mergeRows i m2 ((c0 :: crest).map PTree.rid),
        fun k => if k = i then pl.getD 0 else b2 k, ?_, ?_, ?_, ?_, ?_⟩
      · rw [cbRun_append_ok top lo _ [i] _ _ hrun2]
        simp only [cbRun, cbStep, hfind, PTree.kids, PTree.rplen]
      · intro k c hk
        simp only [List.mem_append, List.mem_singleton] at hk
        push_neg at hk
        rw [mergeRows_ne i _ m2 k c hk.2]
        exact hout2 k c hk.1
      · intro k hk
        simp only [List.mem_append, List.mem_singleton] at hk
        push_neg at hk
        simp only [if_neg hk.2]
        exact houtb2 k hk.1
      · intro k hk c
        simp only [List.mem_append, List.mem_singleton] at hk
        rcases hk with hk | rfl
        · have hki : k ≠ i := fun h => hiout (h ▸ hk)
          rw [mergeRows_ne i _ m2 k c hki, hval2 k hk c,
            hitB_node lo i nm pl c0 crest k c hki hiout]
        · have hmv := mergeRows_val k ((c0 :: crest).map PTree.rid)
            (rids_nodup _ hsplit.1) m2 c hrid_ne (hchild_01 c) (hone c)
            (Or.inl (hm2i c)) (fun h1 => absurd (hm2i c ▸ h1.symm) (by norm_num))
          rw [hmv]
          have hiff : (m2 k c = 1 ∨ ∃ cid ∈ (c0 :: crest).map PTree.rid, m2 cid c = 1) ↔
              (hitB lo (.node k nm pl (c0 :: crest)) k c = true) := by
            rw [hitB_node_root lo k nm pl c0 crest c hiout]
            constructor
            · rintro (h1 | ⟨x, hx, hx1⟩)
              · rw [hm2i c] at h1; cases h1
              · rw [hchild_val x hx c] at hx1
                have hxB : hitBL lo (c0 :: crest) x c = true := by
                  by_contra hB
                  rw [Bool.not_eq_true] at hB
                  rw [hB] at hx1
                  cases hx1
                obtain ⟨lid, hmem, heq, -⟩ := (hitBL_iff lo _ x c).mp hxB
                exact ⟨lid, hmem, heq⟩
            · rintro ⟨lid, hmem, heq⟩
              refine Or.inr ?_
              have hlid : lid ∈ PTree.postL (c0 :: crest) := (leaf_fstL_sublist _).mem hmem
              obtain ⟨ch, hch, hlidch, hpeq⟩ := pathL_locate (c0 :: crest) lid hlid
              refine ⟨ch.rid, List.mem_map_of_mem PTree.rid hch, ?_⟩
              rw [hchild_val ch.rid (List.mem_map_of_mem PTree.rid hch) c]
              have hB : hitBL lo (c0 :: crest) ch.rid c = true := by
                rw [hitBL_iff]
                exact ⟨lid, hmem, heq, by rw [hpeq]; exact path_head ch lid hlidch⟩
              rw [hB]
              rfl
          by_cases hcase : hitB lo (.node k nm pl (c0 :: crest)) k c = true
          · rw [if_pos (hiff.mpr hcase), hcase]
            simp
          · rw [if_neg (fun h => hcase (hiff.mp h))]
            rw [Bool.not_eq_true] at hcase
            rw [hcase]
            simp
      · intro k hk
        simp only [List.mem_append, List.mem_singleton] at hk
        rcases hk with hk | rfl
        · have hki : k ≠ i := fun h => hiout (h ▸ hk)
          simp only [if_neg hki]
          rw [hbv2 k hk, plenAt_node_ne i nm pl _ k (fun h => hki h.symm)]
        · simp [plenAt_node_self]
/-- Forest version of `cb_inv`. -/
theorem cbL_inv (top : PTree) (lo : Nat → Nat) (hnd : (PTree.post top).Nodup)
    (hinj : ∀ la ∈ leavesIds top, ∀ lb ∈ leavesIds top, lo la = lo lb → la = lb) :
    ∀ (cs : List PTree), (∀ c ∈ cs, c ∈ subAll top) → (PTree.postL cs).Nodup →
    ∀ (m0 : Nat → Nat → ℕ) (b0 : Nat → ℚ),
    (∀ k ∈ PTree.postL cs, ∀ c, m0 k c = 0) →
    ∃ m1 b1, cbRun top lo (PTree.postL cs) (m0, b0) = .ok (m1, b1) ∧
      (∀ k c, k ∉ PTree.postL cs → m1 k c = m0 k c) ∧
      (∀ k, k ∉ PTree.postL cs → b1 k = b0 k) ∧
      (∀ k ∈ PTree.postL cs, ∀ c, m1 k c = if hitBL lo cs k c then 1 else 0) ∧
      (∀ k ∈ PTree.postL cs, b1 k = plenAtL cs k)
  | [] => by
      intro _ _ m0 b0 _
      refine ⟨m0, b0, rfl, fun k c _ => rfl, fun k _ => rfl, ?_, ?_⟩
      · intro k hk; cases hk
      · intro k hk; cases hk
  | c :: cs => by
      intro hmem hndL m0 b0 hz
      have hd := List.nodup_append.mp (by simpa [PTree.postL] using hndL)
      have hpostL : PTree.postL (c :: cs) = PTree.post c ++ PTree.postL cs := by
        simp [PTree.postL]
      obtain ⟨mA, bA, hrunA, houtA, houtbA, hvalA, hbvA⟩ :=
        cb_inv top lo hnd hinj c (hmem c (List.mem_cons_self _ _)) m0 b0
          (fun k hk cc => hz k (by rw [hpostL]; exact List.mem_append.mpr (Or.inl hk)) cc)
      obtain ⟨mB, bB, hrunB, houtB, houtbB, hvalB, hbvB⟩ :=
        cbL_inv top lo hnd hinj cs (fun c' hc' => hmem c' (List.mem_cons_of_mem _ hc'))
          hd.2.1 mA bA
          (fun k hk cc => by
            have hknc : k ∉ PTree.post c := fun hm => hd.2.2 hm hk
            rw [houtA k cc hknc]
            exact hz k (by rw [hpostL]; exact List.mem_append.mpr (Or.inr hk)) cc)
      rw [hpostL]
      refine ⟨mB, bB, ?_, ?_, ?_, ?_, ?_⟩
      · rw [cbRun_append_ok top lo _ _ _ _ hrunA]
        exact hrunB
      · intro k cc hk
        simp only [List.mem_append] at hk
        push_neg at hk
        rw [houtB k cc hk.2]
        exact houtA k cc hk.1
      · intro k hk
        simp only [List.mem_append] at hk
        push_neg at hk
        rw [houtbB k hk.2]
        exact houtbA k hk.1
      · intro k hk cc
        simp only [List.mem_append] at hk
        rcases hk with hk | hk
        · have hkcs : k ∉ PTree.postL cs := fun hm => hd.2.2 hk hm
          rw [houtB k cc hkcs, hvalA k hk cc, hitBL_cons_left lo c cs k cc hndL hk]
        · rw [hvalB k hk cc, hitBL_cons_right lo c cs k cc hndL hk]
      · intro k hk
        simp only [List.mem_append] at hk
        rcases hk with hk | hk
        · have hkcs : k ∉ PTree.postL cs := fun hm => hd.2.2 hk hm
          rw [houtbB k hkcs, hbvA k hk, plenAtL_cons_left c cs k hk]
        · have hknc : k ∉ PTree.post c := fun hm => hd.2.2 hm hk
          rw [hbvB k hk, plenAtL_cons_right c cs k hknc]
end

/-- Characterisation of `construct_b` on a tree with distinct node ids and
an injective leaf-ordinal assignment: the matrix rows hold the hit
indicator, the branch vector the parent-edge lengths, and everything
outside the tree stays zero. -/
theorem construct_b_char (t : PTree) (lo : Nat → Nat)
    (hnd : (PTree.post t).Nodup)
    (hinj : ∀ la ∈ leavesIds t, ∀ lb ∈ leavesIds t, lo la = lo lb → la = lb)
    (m : Nat → Nat → ℕ) (b : Nat → ℚ)
    (hcb : construct_b t lo = .ok (m, b)) :
    (∀ k ∈ PTree.post t, ∀ c, m k c = if hitB lo t k c then 1 else 0) ∧
    (∀ k c, k ∉ PTree.post t → m k c = 0) ∧
    (∀ k ∈ PTree.post t, b k = plenAt t k) ∧
    (∀ k, k ∉ PTree.post t → b k = 0) := by
  obtain ⟨m1, b1, hrun, hout, houtb, hval, hbv⟩ :=
    cb_inv t lo hnd hinj t (mem_subAll_self t) (fun _ _ => 0) (fun _ => 0)
      (fun _ _ _ => rfl)
  unfold construct_b at hcb
  rw [hrun] at hcb
  simp only [Except.ok.injEq, Prod.mk.injEq] at hcb
  obtain ⟨rfl, rfl⟩ := hcb
  exact ⟨hval, fun k c hk => hout k c hk, hbv, fun k hk => houtb k hk⟩

/-- C6: in the matrix built by `construct_b`, the column at a leaf's ordinal
has entry 1 exactly at that leaf's node and each of its ancestors up to the
root, and 0 everywhere else; no entry of the matrix ever exceeds 1, so the
`u8` row merges never overflow. -/
theorem claim_c6 (t : PTree) (lo : Nat → Nat) (lns : List String)
    (m : Nat → Nat → ℕ) (b : Nat → ℚ)
    (hnd : (PTree.post t).Nodup)
    (hld : leafData t = .ok (lo, lns))
    (hcb : construct_b t lo = .ok (m, b)) :
    (∀ lid ∈ leavesIds t, ∀ k,
      m k (lo lid) = if k ∈ pathTo t lid then 1 else 0) ∧
    (∀ k c, m k c ≤ 1) := by
  have hndl : (leavesIds t).Nodup := hnd.sublist (leaf_fst_sublist t)
  have hinj := leafData_inj t lo lns hld hndl
  obtain ⟨hval, hout, -, -⟩ := construct_b_char t lo hnd hinj m b hcb
  constructor
  · intro lid hlid k
    by_cases hk : k ∈ PTree.post t
    · rw [hval k hk (lo lid)]
      by_cases hp : k ∈ pathTo t lid
      · have hhit : hitB lo t k (lo lid) = true :=
          (hitB_iff lo t k (lo lid)).mpr ⟨lid, hlid, rfl, hp⟩
        rw [hhit]
        simp [hp]
      · have hhit : hitB lo t k (lo lid) = false := by
          rw [Bool.eq_false_iff]
          intro hB
          obtain ⟨lid', hlid', heq, hp'⟩ := (hitB_iff lo t k (lo lid)).mp hB
          have := hinj lid' hlid' lid hlid heq
          rw [this] at hp'
          exact hp hp'
        rw [hhit]
        simp [hp]
    · rw [hout k (lo lid) hk]
      have hp : k ∉ pathTo t lid := fun hmem => hk (pathTo_sub_post t lid k hmem)
      simp [hp]
  · intro k c
    by_cases hk : k ∈ PTree.post t
    · rw [hval k hk c]
      by_cases h : hitB lo t k c = true <;> simp [h]
    · rw [hout k c hk]
      norm_num

/-- C6 witness: the theorem applied to the two-leaf star tree. -/
theorem claim_c6_w :
    (∀ lid ∈ leavesIds exStar, ∀ k,
      exStarCb.1 k (exStarLd.1 lid) = if k ∈ pathTo exStar lid then 1 else 0) ∧
    (∀ k c, exStarCb.1 k c ≤ 1) :=
  claim_c6 exStar exStarLd.1 exStarLd.2 exStarCb.1 exStarCb.2 (by decide) rfl rfl

/-! ## Lemmas about `compress` -/

/-- `leafInfo` ignores the parent-edge length. -/
theorem leafInfo_rebuild (c : PTree) (pl1 : Option ℚ) :
    leafInfo (PTree.node c.rid c.rname pl1 c.kids) = leafInfo c := by
  cases c with
  | node i nm pl cs => cases cs <;> rfl

/-- `PTree.post` ignores the name and the parent-edge length. -/
theorem post_rebuild (c : PTree) (nm1 : Option String) (pl1 : Option ℚ) :
    PTree.post (PTree.node c.rid nm1 pl1 c.kids) = PTree.post c := by
  cases c with
  | node i nm pl cs => rfl

/-- `noUnaryB` ignores the name and the parent-edge length. -/
theorem noUnary_rebuild (c : PTree) (nm1 : Option String) (pl1 : Option ℚ) :
    noUnaryB (PTree.node c.rid nm1 pl1 c.kids) = noUnaryB c := by
  cases c with
  | node i nm pl cs => rfl

/-- `compressL` preserves the number of children. -/
theorem compressL_length : ∀ cs : List PTree, (compressL cs).length = cs.length := by
  intro cs
  induction cs with
  | nil => rfl
  | cons c rest ih => simp only [compressL, List.length_cons, ih]

mutual
/-- The result of `compress` has no unary node. -/
theorem compress_noUnary : ∀ t : PTree, noUnaryB (compress t) = true
  | .node i nm pl cs => by
      simp only [compress]
      split
      · rename_i c heq
        have h := compressL_noUnary cs
        rw [heq] at h
        simp only [noUnaryBL, Bool.and_true] at h
        rw [noUnary_rebuild]
        exact h
      · rename_i hne
        have hlen : (compressL cs).length ≠ 1 := by
          intro h1
          cases hx : compressL cs with
          | nil => rw [hx] at h1; simp at h1
          | cons a t =>
              cases t with
              | nil => exact hne a hx
              | cons b t2 => rw [hx] at h1; simp at h1
        simp only [noUnaryB, Bool.and_eq_true, decide_eq_true_eq]
        exact ⟨hlen, compressL_noUnary cs⟩
/-- No member of a compressed forest has a unary node. -/
theorem compressL_noUnary : ∀ cs : List PTree, noUnaryBL (compressL cs) = true
  | [] => rfl
  | c :: cs => by
      simp only [compressL, noUnaryBL, Bool.and_eq_true]
      exact ⟨compress_noUnary c, compressL_noUnary cs⟩
end

mutual
/-- `compress` preserves the tips and their names. -/
theorem compress_leafInfo : ∀ t : PTree, leafInfo (compress t) = leafInfo t
  | .node i nm pl cs => by
      simp only [compress]
      split
      · rename_i c heq
        have h := compressL_leafInfo cs
        rw [heq] at h
        simp only [leafInfoL, List.append_nil] at h
        rw [leafInfo_rebuild c (some (pl.getD 0 + c.rplen.getD 0))]
        cases cs with
        | nil => cases heq
        | cons c0 rest => simpa only [leafInfo] using h
      · cases cs with
        | nil => rfl
        | cons c0 rest =>
            cases hx : compressL (c0 :: rest) with
            | nil => rw [compressL] at hx; cases hx
            | cons x0 xr =>
                have h := compressL_leafInfo (c0 :: rest)
                rw [hx] at h
                simpa only [leafInfo] using h
/-- `compressL` preserves the tips of a forest. -/
theorem compressL_leafInfo : ∀ cs : List PTree, leafInfoL (compressL cs) = leafInfoL cs
  | [] => rfl
  | c :: cs => by
      simp only [compressL, leafInfoL, compress_leafInfo c, compressL_leafInfo cs]
end

mutual
/-- The postorder ids of a compressed tree form a sublist of the original
postorder. -/
theorem compress_post : ∀ t : PTree, (PTree.post (compress t)).Sublist (PTree.post t)
  | .node i nm pl cs => by
      simp only [compress]
      split
      · rename_i c heq
        have h := compressL_post cs
        rw [heq] at h
        simp only [PTree.postL, List.append_nil] at h
        rw [post_rebuild c c.rname (some (pl.getD 0 + c.rplen.getD 0))]
        simp only [PTree.post]
        exact h.trans (List.sublist_append_left _ _)
      · simp only [PTree.post]
        exact (compressL_post cs).append (List.Sublist.refl [i])
/-- Forest version of `compress_post`. -/
theorem compressL_post : ∀ cs : List PTree, (PTree.postL (compressL cs)).Sublist (PTree.postL cs)
  | [] => by simp [compressL]
  | c :: cs => by
      simp only [compressL, PTree.postL]
      exact (compress_post c).append (compressL_post cs)
end

/-! ## Lemmas about `removeIn` and `prune` -/

/-- Leaf ids of a forest lie in the forest postorder. -/
theorem leafL_mem_postL {cs : List PTree} {p : Nat × Option String}
    (hp : p ∈ leafInfoL cs) : p.1 ∈ PTree.postL cs :=
  (leaf_fstL_sublist cs).subset (List.mem_map_of_mem Prod.fst hp)

mutual
/-- A successful tip removal on a tree with distinct node ids and no unary
node: the removed id was in the tree, the surviving tips are exactly the
original tips other than the removed one, and the postorder shrinks to a
sublist. -/
theorem removeIn_char : ∀ (t : PTree) (lid : Nat) (t1 : PTree),
    (PTree.post t).Nodup → noUnaryB t = true → removeIn t lid = some t1 →
    lid ∈ PTree.post t ∧
    leafInfo t1 = (leafInfo t).filter (fun p => decide (p.1 ≠ lid)) ∧
    (PTree.post t1).Sublist (PTree.post t)
  | .node i nm pl cs, lid, t1 => by
      intro hnd hnu hrm
      cases cs with
      | nil => simp [removeIn, removeInL] at hrm
      | cons c0 rest =>
          simp only [removeIn] at hrm
          cases hcs : removeInL (c0 :: rest) lid with
          | none => rw [hcs] at hrm; simp at hrm
          | some cs1 =>
              rw [hcs] at hrm
              simp only [Option.map_some'] at hrm
              injection hrm with hrm
              subst hrm
              simp only [noUnaryB, Bool.and_eq_true, decide_eq_true_eq] at hnu
              have hndL : (PTree.postL (c0 :: rest)).Nodup :=
                (List.nodup_append.mp (by simpa [PTree.post] using hnd)).1
              obtain ⟨hmem, hli, hsl, hlen2⟩ :=
                removeInL_char (c0 :: rest) lid cs1 hndL hnu.2 hcs
              refine ⟨?_, ?_, ?_⟩
              · simp only [PTree.post, List.mem_append]
                exact Or.inl hmem
              · cases cs1 with
                | nil =>
                    exfalso
                    obtain ⟨hn1, -⟩ := hnu
                    simp only [List.length_cons, List.length_nil] at hlen2 hn1
                    omega
                | cons d0 ds =>
                    simpa only [leafInfo] using hli
              · simp only [PTree.post]
                exact hsl.append (List.Sublist.refl [i])
/-- Forest version of `removeIn_char`: successful removal in a forest of
trees with distinct ids and no unary node, losing at most one root. -/
theorem removeInL_char : ∀ (cs : List PTree) (lid : Nat) (cs1 : List PTree),
    (PTree.postL cs).Nodup → noUnaryBL cs = true → removeInL cs lid = some cs1 →
    lid ∈ PTree.postL cs ∧
    leafInfoL cs1 = (leafInfoL cs).filter (fun p => decide (p.1 ≠ lid)) ∧
    (PTree.postL cs1).Sublist (PTree.postL cs) ∧ cs.length ≤ cs1.length + 1
  | [], lid, cs1 => by
      intro _ _ hrm
      simp [removeInL] at hrm
  | c :: cs, lid, cs1 => by
      intro hnd hnu hrm
      have hpair := List.nodup_append.mp (by simpa [PTree.postL] using hnd)
      simp only [noUnaryBL, Bool.and_eq_true] at hnu
      simp only [removeInL] at hrm
      by_cases hg : (c.rid = lid && c.kids.isEmpty) = true
      · rw [if_pos hg] at hrm
        injection hrm with hrm
        subst hrm
        obtain ⟨ci, cnm, cpl, ck⟩ := c
        simp only [PTree.rid, PTree.kids, Bool.and_eq_true, decide_eq_true_eq] at hg
        cases ck with
        | cons k0 ks => simp at hg
        | nil =>
            obtain ⟨rfl, -⟩ := hg
            have hflt : (leafInfoL cs).filter (fun p => decide (p.1 ≠ ci)) = leafInfoL cs := by
              refine List.filter_eq_self.mpr ?_
              intro p hp
              have h1 : p.1 ∈ PTree.postL cs := leafL_mem_postL hp
              have h2 : ci ∉ PTree.postL cs := by
                intro hc
                exact hpair.2.2 (by simp [PTree.post, PTree.postL]) hc
              exact decide_eq_true (fun he => h2 (he ▸ h1))
            refine ⟨by simp [PTree.postL, PTree.post], ?_, ?_, by simp⟩
            · simp only [leafInfoL, leafInfo, List.filter_append, hflt]
              simp
            · simp only [PTree.postL]
              exact List.sublist_append_right _ _
      · rw [if_neg hg] at hrm
        cases hri : removeIn c lid with
        | some c1 =>
            rw [hri] at hrm
            injection hrm with hrm
            subst hrm
            obtain ⟨hm, hl, hs⟩ := removeIn_char c lid c1 hpair.1 hnu.1 hri
            have hflt : (leafInfoL cs).filter (fun p => decide (p.1 ≠ lid)) = leafInfoL cs := by
              refine List.filter_eq_self.mpr ?_
              intro p hp
              have h1 : p.1 ∈ PTree.postL cs := leafL_mem_postL hp
              exact decide_eq_true (fun he => hpair.2.2 hm (he ▸ h1))
            refine ⟨?_, ?_, ?_, by simp⟩
            · simp only [PTree.postL, List.mem_append]
              exact Or.inl hm
            · simp only [leafInfoL, List.filter_append, hl, hflt]
            · simp only [PTree.postL]
              exact hs.append (List.Sublist.refl _)
        | none =>
            rw [hri] at hrm
            cases hrl : removeInL cs lid with
            | none => rw [hrl] at hrm; simp at hrm
            | some cs2 =>
                rw [hrl] at hrm
                simp only [Option.map_some'] at hrm
                injection hrm with hrm
                subst hrm
                obtain ⟨hm, hl, hs, hlen⟩ := removeInL_char cs lid cs2 hpair.2.1 hnu.2 hrl
                have hflt : (leafInfo c).filter (fun p => decide (p.1 ≠ lid)) = leafInfo c := by
                  refine List.filter_eq_self.mpr ?_
                  intro p hp
                  have h1 : p.1 ∈ PTree.post c := leaf_mem_post hp
                  exact decide_eq_true (fun he => hpair.2.2 (he ▸ h1) hm)
                refine ⟨?_, ?_, ?_, ?_⟩
                · simp only [PTree.postL, List.mem_append]
                  exact Or.inr hm
                · simp only [leafInfoL, List.filter_append, hl, hflt]
                · simp only [PTree.postL]
                  exact (List.Sublist.refl _).append hs
                · simp only [List.length_cons]
                  omega
end

/-- What a successful `prune` guarantees: the root survived, the removal
happened, and at least two leaves remain. -/
theorem prune_ok {t : PTree} {lid : Nat} {t1 : PTree}
    (h : prune t lid = .ok t1) :
    t.rid ≠ lid ∧ removeIn t lid = some t1 ∧ 2 ≤ (leavesIds t1).length := by
  unfold prune at h
  by_cases hr : t.rid = lid
  · rw [if_pos hr] at h; cases h
  · rw [if_neg hr] at h
    cases hm : removeIn t lid with
    | none => rw [hm] at h; cases h
    | some t0 =>
        simp only [hm] at h
        by_cases hl : (leavesIds t0).length < 2
        · rw [if_pos hl] at h; cases h
        · rw [if_neg hl] at h
          injection h with h
          subst h
          exact ⟨hr, rfl, by omega⟩

/-- `prune` either succeeds or fails with the prune error: no other error
can come out of it. -/
theorem prune_cases (t : PTree) (lid : Nat) :
    (∃ t1, prune t lid = .ok t1) ∨ prune t lid = .error .pruneFailed := by
  unfold prune
  by_cases hr : t.rid = lid
  · rw [if_pos hr]; exact Or.inr rfl
  · rw [if_neg hr]
    cases hm : removeIn t lid with
    | none => exact Or.inr rfl
    | some t0 =>
        by_cases hl : (leavesIds t0).length < 2
        · refine Or.inr ?_
          show (if (leavesIds t0).length < 2 then Except.error Err.pruneFailed
            else Except.ok t0) = Except.error Err.pruneFailed
          rw [if_pos hl]
        · refine Or.inl ⟨t0, ?_⟩
          show (if (leavesIds t0).length < 2 then Except.error Err.pruneFailed
            else Except.ok t0) = Except.ok t0
          rw [if_neg hl]

/-- Under distinct postorder ids, looking up a leaf id finds the childless
node with that id and the leaf's name. -/
theorem findT_tip (t : PTree) (hnd : (PTree.post t).Nodup)
    (p : Nat × Option String) (hp : p ∈ leafInfo t) :
    ∃ pl, findT t p.1 = some (PTree.node p.1 p.2 pl []) := by
  obtain ⟨pl, hmem⟩ := tip_mem_subAll t p hp
  refine ⟨pl, ?_⟩
  have h := find_sub t hnd _ hmem
  simpa [PTree.rid] using h

/-! ## The pruning loop -/

/-- Success characterisation of the `compute.rs` pruning loop: on a tree
with distinct ids and no unary node, if every leaf whose id is not pending
is kept, then the resulting subtree's tips are original kept tips, its
postorder is a sublist of the original, and it has no unary node. -/
theorem plGoC_char (pres : List String) :
    ∀ (ls : List Nat) (cur sub : PTree),
      (PTree.post cur).Nodup → noUnaryB cur = true →
      plGoC pres ls cur = .ok sub →
      (∀ p ∈ leafInfo cur, p.1 ∉ ls → keptB pres p = true) →
      (∀ p ∈ leafInfo sub, p ∈ leafInfo cur ∧ keptB pres p = true) ∧
      (PTree.post sub).Sublist (PTree.post cur) ∧ noUnaryB sub = true := by
  intro ls
  induction ls with
  | nil =>
      intro cur sub hnd hnu h hk
      simp only [plGoC] at h
      injection h with h
      subst h
      exact ⟨fun p hp => ⟨hp, hk p hp (by simp)⟩, List.Sublist.refl _, hnu⟩
  | cons l rest ih =>
      intro cur sub hnd hnu h hk
      simp only [plGoC] at h
      cases hf : findT cur l with
      | none => simp only [hf] at h; cases h
      | some nd =>
          simp only [hf] at h
          cases hn : nd.rname with
          | none => simp only [hn] at h; cases h
          | some nm =>
              simp only [hn] at h
              by_cases hs : strMem pres nm = true
              · rw [if_pos hs] at h
                refine ih cur sub hnd hnu h ?_
                intro p hp hpl
                obtain ⟨pid, ponm⟩ := p
                by_cases hpeq : pid = l
                · subst hpeq
                  obtain ⟨pl1, hft1⟩ := findT_tip cur hnd (pid, ponm) hp
                  rw [hf] at hft1
                  injection hft1 with hft1
                  rw [hft1] at hn
                  simp only [PTree.rname] at hn
                  subst hn
                  simp [keptB, hs]
                · refine hk (pid, ponm) hp ?_
                  intro hmem
                  rcases List.mem_cons.mp hmem with h1 | h1
                  · exact hpeq h1
                  · exact hpl h1
              · rw [if_neg hs] at h
                cases hp1 : prune cur l with
                | error e => simp only [hp1] at h; cases h
                | ok t1 =>
                    simp only [hp1] at h
                    obtain ⟨hr, hm, hl2⟩ := prune_ok hp1
                    obtain ⟨hlid, hli, hsub⟩ := removeIn_char cur l t1 hnd hnu hm
                    have hsub2 : (PTree.post (compress t1)).Sublist (PTree.post cur) :=
                      (compress_post t1).trans hsub
                    have hnd1 : (PTree.post (compress t1)).Nodup := hnd.sublist hsub2
                    have hli2 : leafInfo (compress t1) =
                        (leafInfo cur).filter (fun p => decide (p.1 ≠ l)) := by
                      rw [compress_leafInfo]
                      exact hli
                    have hkept : ∀ p ∈ leafInfo (compress t1),
                        p.1 ∉ rest → keptB pres p = true := by
                      intro p hp hpr
                      rw [hli2] at hp
                      have hp2 := List.mem_filter.mp hp
                      have hne : p.1 ≠ l := by simpa using hp2.2
                      refine hk p hp2.1 ?_
                      intro hmem
                      rcases List.mem_cons.mp hmem with h1 | h1
                      · exact hne h1
                      · exact hpr h1
                    obtain ⟨ha, hb, hc⟩ :=
                      ih (compress t1) sub hnd1 (compress_noUnary t1) h hkept
                    refine ⟨?_, hb.trans hsub2, hc⟩
                    intro p hp
                    obtain ⟨hp1m, hp2⟩ := ha p hp
                    rw [hli2] at hp1m
                    exact ⟨(List.mem_filter.mp hp1m).1, hp2⟩

/-- Failure of the pruning loop: when fewer than two leaves are kept and
some pending leaf is not kept, the loop ends in the prune error. -/
theorem plGoC_fail (pres : List String) :
    ∀ (ls : List Nat) (cur : PTree),
      (PTree.post cur).Nodup → noUnaryB cur = true → ls.Nodup →
      (∀ p ∈ leafInfo cur, p.2.isSome = true) →
      (∀ x ∈ ls, ∃ o, (x, o) ∈ leafInfo cur) →
      (∀ p ∈ leafInfo cur, p.1 ∉ ls → keptB pres p = true) →
      ((leafInfo cur).filter (fun p => keptB pres p)).length < 2 →
      (∃ x ∈ ls, ∃ o, (x, o) ∈ leafInfo cur ∧ keptB pres (x, o) = false) →
      plGoC pres ls cur = .error .pruneFailed := by
  intro ls
  induction ls with
  | nil =>
      intro cur _ _ _ _ _ _ _ hex
      obtain ⟨x, hx, -⟩ := hex
      exact absurd hx (List.not_mem_nil x)
  | cons l rest ih =>
      intro cur hnd hnu hlsnd htn hpend hk hcnt hex
      obtain ⟨onm, honm⟩ := hpend l (by simp)
      obtain ⟨pl0, hft⟩ := findT_tip cur hnd (l, onm) honm
      have hsome : onm.isSome = true := htn _ honm
      obtain ⟨nm, hnm⟩ := Option.isSome_iff_exists.mp hsome
      subst hnm
      simp only [plGoC, hft, PTree.rname]
      by_cases hs : strMem pres nm = true
      · rw [if_pos hs]
        have hpend2 : ∀ x ∈ rest, ∃ o, (x, o) ∈ leafInfo cur :=
          fun x hx => hpend x (by simp [hx])
      -- every leaf off the shorter pending list is still kept
        have hk2 : ∀ p ∈ leafInfo cur, p.1 ∉ rest → keptB pres p = true := by
          intro p hp hpr
          obtain ⟨pid, ponm⟩ := p
          by_cases hpeq : pid = l
          · subst hpeq
            obtain ⟨pl1, hft1⟩ := findT_tip cur hnd (pid, ponm) hp
            rw [hft] at hft1
            injection hft1 with hft1
            injection hft1 with e1 e2 e3 e4
            subst e2
            simp [keptB, hs]
          · refine hk (pid, ponm) hp ?_
            intro hmem
            rcases List.mem_cons.mp hmem with h1 | h1
            · exact hpeq h1
            · exact hpr h1
        have hex2 : ∃ x ∈ rest, ∃ o, (x, o) ∈ leafInfo cur ∧ keptB pres (x, o) = false := by
          obtain ⟨x, hx, o, ho, hko⟩ := hex
          rcases List.mem_cons.mp hx with rfl | hx2
          · exfalso
            obtain ⟨pl1, hft1⟩ := findT_tip cur hnd (x, o) ho
            rw [hft] at hft1
            injection hft1 with hft1
            injection hft1 with e1 e2 e3 e4
            subst e2
            simp [keptB, hs] at hko
          · exact ⟨x, hx2, o, ho, hko⟩
        exact ih cur hnd hnu hlsnd.of_cons htn hpend2 hk2 hcnt hex2
      · rw [if_neg hs]
        rcases prune_cases cur l with ⟨t1, hp1⟩ | hp1
        · simp only [hp1]
          obtain ⟨hr, hm, hl2⟩ := prune_ok hp1
          obtain ⟨hlid, hli, hsub⟩ := removeIn_char cur l t1 hnd hnu hm
          have hsub2 : (PTree.post (compress t1)).Sublist (PTree.post cur) :=
            (compress_post t1).trans hsub
          have hnd1 : (PTree.post (compress t1)).Nodup := hnd.sublist hsub2
          have hli2 : leafInfo (compress t1) =
              (leafInfo cur).filter (fun p => decide (p.1 ≠ l)) := by
            rw [compress_leafInfo]
            exact hli
          have hmono : ((leafInfo (compress t1)).filter (fun p => keptB pres p)).length ≤
              ((leafInfo cur).filter (fun p => keptB pres p)).length := by
            rw [hli2]
            exact List.Sublist.length_le (List.Sublist.filter _ (List.filter_sublist _))
          have hlen1 : (leafInfo (compress t1)).length = (leavesIds t1).length := by
            rw [compress_leafInfo]
            simp [leavesIds]
          have hex1 : ∃ p ∈ leafInfo (compress t1), keptB pres p = false := by
            by_contra hno
            push_neg at hno
            have hall : ∀ p ∈ leafInfo (compress t1), keptB pres p = true := by
              intro p hp
              cases hkp : keptB pres p with
              | false => exact absurd hkp (hno p hp)
              | true => rfl
            have hfe : (leafInfo (compress t1)).filter (fun p => keptB pres p) =
                leafInfo (compress t1) := List.filter_eq_self.mpr hall
            rw [hfe] at hmono
            omega
          obtain ⟨⟨pid, ponm⟩, hpmem, hpk⟩ := hex1
          have hpmem2 := hpmem
          rw [hli2] at hpmem2
          have hsplit := List.mem_filter.mp hpmem2
          have hpneq : pid ≠ l := by simpa using hsplit.2
          have hpinrest : pid ∈ rest := by
            by_contra hnr
            have hkk := hk (pid, ponm) hsplit.1 ?_
            · rw [hkk] at hpk
              cases hpk
            · intro hmem
              rcases List.mem_cons.mp hmem with h1 | h1
              · exact hpneq h1
              · exact hnr h1
          have htn2 : ∀ p ∈ leafInfo (compress t1), p.2.isSome = true := by
            intro p hp
            rw [hli2] at hp
            exact htn p (List.mem_filter.mp hp).1
          have hpend2 : ∀ x ∈ rest, ∃ o, (x, o) ∈ leafInfo (compress t1) := by
            intro x hx
            obtain ⟨o, ho⟩ := hpend x (by simp [hx])
            refine ⟨o, ?_⟩
            rw [hli2]
            refine List.mem_filter.mpr ⟨ho, ?_⟩
            have hxl : x ≠ l := fun he => (List.nodup_cons.mp hlsnd).1 (he ▸ hx)
            simpa using hxl
          have hk2 : ∀ p ∈ leafInfo (compress t1), p.1 ∉ rest → keptB pres p = true := by
            intro p hp hpr
            rw [hli2] at hp
            have hsp := List.mem_filter.mp hp
            have hne : p.1 ≠ l := by simpa using hsp.2
            refine hk p hsp.1 ?_
            intro hmem
            rcases List.mem_cons.mp hmem with h1 | h1
            · exact hne h1
            · exact hpr h1
          have hcnt2 : ((leafInfo (compress t1)).filter (fun p => keptB pres p)).length < 2 := by
            omega
          exact ih (compress t1) hnd1 (compress_noUnary t1) hlsnd.of_cons htn2 hpend2 hk2
            hcnt2 ⟨pid, hpinrest, ponm, hpmem, hpk⟩
        · rw [hp1]

/-! ## The present-taxa scan -/

/-- `strMem` distributes over append. -/
theorem strMem_append : ∀ (a b : List String) (s : String),
    strMem (a ++ b) s = (strMem a s || strMem b s) := by
  intro a
  induction a with
  | nil => intro b s; simp [strMem]
  | cons x l ih =>
      intro b s
      simp only [List.cons_append, strMem]
      by_cases h : x = s
      · rw [if_pos h, if_pos h]
        simp
      · rw [if_neg h, if_neg h]
        exact ih b s

/-- A successful present-taxa scan read every row it visited: every visited
taxon has a row with entries in both sample columns. -/
theorem ptGo_shape (pm : List (List ℚ)) (i j : Nat) :
    ∀ (txs : List String) (tIdx : Nat) (acc pres : List String),
      ptGo pm i j txs tIdx acc = .ok pres →
      ∀ n nm, lget txs n = some nm →
        ∃ row vi vj, lget pm (tIdx + n) = some row ∧
          lget row i = some vi ∧ lget row j = some vj := by
  intro txs
  induction txs with
  | nil => intro tIdx acc pres h n nm hn; cases hn
  | cons tx rest ih =>
      intro tIdx acc pres h n nm hn
      simp only [ptGo] at h
      cases hrow : lget pm tIdx with
      | none => simp only [hrow] at h; cases h
      | some row =>
          simp only [hrow] at h
          cases hvi : lget row i with
          | none => simp only [hvi] at h; cases h
          | some vi =>
              simp only [hvi] at h
              cases hvj : lget row j with
              | none => simp only [hvj] at h; cases h
              | some vj =>
                  simp only [hvj] at h
                  cases n with
                  | zero => exact ⟨row, vi, vj, by simpa using hrow, hvi, hvj⟩
                  | succ n2 =>
                      obtain ⟨row2, v1, v2, h1, h2, h3⟩ :=
                        ih (tIdx + 1) _ pres h n2 nm (by simpa [lget] using hn)
                      exact ⟨row2, v1, v2,
                        by rwa [show tIdx + (n2 + 1) = tIdx + 1 + n2 by omega], h2, h3⟩

/-- Origin of a name in the present set: it was already accumulated, or some
visited taxon carries it and its row is positive in one of the two sample
columns. -/
theorem ptGo_mem (pm : List (List ℚ)) (i j : Nat) :
    ∀ (txs : List String) (tIdx : Nat) (acc pres : List String),
      ptGo pm i j txs tIdx acc = .ok pres →
      ∀ nm, strMem pres nm = true →
        strMem acc nm = true ∨
        ∃ n row vi vj, lget txs n = some nm ∧ lget pm (tIdx + n) = some row ∧
          lget row i = some vi ∧ lget row j = some vj ∧ (0 < vi ∨ 0 < vj) := by
  intro txs
  induction txs with
  | nil =>
      intro tIdx acc pres h nm hm
      simp only [ptGo] at h
      injection h with h
      subst h
      exact Or.inl hm
  | cons tx rest ih =>
      intro tIdx acc pres h nm hm
      simp only [ptGo] at h
      cases hrow : lget pm tIdx with
      | none => simp only [hrow] at h; cases h
      | some row =>
          simp only [hrow] at h
          cases hvi : lget row i with
          | none => simp only [hvi] at h; cases h
          | some vi =>
              simp only [hvi] at h
              cases hvj : lget row j with
              | none => simp only [hvj] at h; cases h
              | some vj =>
                  simp only [hvj] at h
                  rcases ih (tIdx + 1) _ pres h nm hm with
                    hacc | ⟨n, row2, v1, v2, h1, h2, h3, h4, h5⟩
                  · by_cases hc : 0 < vi ∨ 0 < vj
                    · rw [if_pos hc] at hacc
                      rw [strMem_append] at hacc
                      rw [Bool.or_eq_true] at hacc
                      rcases hacc with h6 | h6
                      · exact Or.inl h6
                      · have htx : tx = nm := by
                          simp only [strMem] at h6
                          by_cases he : tx = nm
                          · exact he
                          · rw [if_neg he] at h6; cases h6
                        subst htx
                        exact Or.inr ⟨0, row, vi, vj, rfl, by simpa using hrow, hvi, hvj, hc⟩
                    · rw [if_neg hc] at hacc
                      exact Or.inl hacc
                  · exact Or.inr ⟨n + 1, row2, v1, v2, by simpa [lget] using h1,
                      by rwa [show tIdx + (n + 1) = tIdx + 1 + n by omega], h3, h4, h5⟩

/-- Under distinct taxa names, the first-occurrence index of the name at
list position `n` is `n` itself. -/
theorem sidxOf_of_lget :
    ∀ (taxa : List String), taxa.Nodup → ∀ n nm, lget taxa n = some nm →
      sidxOf taxa nm = some n := by
  intro taxa
  induction taxa with
  | nil => intro _ n nm h; cases h
  | cons a l ih =>
      intro hnd n nm h
      cases n with
      | zero =>
          injection h with h
          subst h
          simp [sidxOf]
      | succ n2 =>
          simp only [lget] at h
          have hmem : nm ∈ l := lget_mem l n2 nm h
          have hne : a ≠ nm := fun he => (List.nodup_cons.mp hnd).1 (he ▸ hmem)
          simp only [sidxOf]
          rw [if_neg hne, ih (List.nodup_cons.mp hnd).2 n2 nm h]
          rfl

/-- Propositional reading of `hasPresB`. -/
theorem hasPresB_iff (sub : PTree) (pm : List (List ℚ)) (taxa : List String)
    (sidx k : Nat) :
    hasPresB sub pm taxa sidx k = true ↔
      ∃ lid nm, (lid, some nm) ∈ leafInfo sub ∧ k ∈ pathTo sub lid ∧
        presIn pm taxa sidx nm = true := by
  simp only [hasPresB, List.any_eq_true]
  constructor
  · rintro ⟨⟨lid, onm⟩, hp, hcond⟩
    cases onm with
    | none => simp at hcond
    | some nm =>
        have hcond2 : ((pathTo sub lid).contains k && presIn pm taxa sidx nm) = true := hcond
        rw [Bool.and_eq_true] at hcond2
        exact ⟨lid, nm, hp, by simpa [List.contains, List.elem_iff] using hcond2.1, hcond2.2⟩
  · rintro ⟨lid, nm, hp, hpath, hpres⟩
    refine ⟨(lid, some nm), hp, ?_⟩
    show ((pathTo sub lid).contains k && presIn pm taxa sidx nm) = true
    rw [Bool.and_eq_true]
    exact ⟨by simpa [List.contains, List.elem_iff] using hpath, hpres⟩

/-- The clamped sample vector is exactly the indicator of "some present leaf
of the subtree descends through this node": the bridge between the matrix
sweep and the sample columns. -/
theorem gsv_hasPres (sub : PTree) (pm : List (List ℚ)) (taxa : List String)
    (lo : Nat → Nat) (lns : List String) (sidx : Nat)
    (matB : Nat → Nat → ℕ) (brl : Nat → ℚ) (pa : Nat → ℚ)
    (hnds : (PTree.post sub).Nodup)
    (hld : leafData sub = .ok (lo, lns))
    (hcb : construct_b sub lo = .ok (matB, brl))
    (hpa : get_sample_vec matB pm taxa lns sidx = .ok pa) :
    ∀ k, pa k = if hasPresB sub pm taxa sidx k = true then 1 else 0 := by
  have hndl : (leavesIds sub).Nodup := hnds.sublist (leaf_fst_sublist sub)
  have hinj := leafData_inj sub lo lns hld hndl
  obtain ⟨hval, hout, -, -⟩ := construct_b_char sub lo hnds hinj matB brl hcb
  have hch := get_sample_vec_char matB pm taxa lns sidx pa hpa
  have hspec := leafData_spec sub lo lns hld hndl
  intro k
  rw [hch k]
  by_cases hP : hasPresB sub pm taxa sidx k = true
  · rw [if_pos hP]
    obtain ⟨lid, nm, hpmem, hpath, hpres⟩ := (hasPresB_iff sub pm taxa sidx k).mp hP
    have hlidm : lid ∈ leavesIds sub := List.mem_map_of_mem Prod.fst hpmem
    obtain ⟨n, hn⟩ := mem_lget (leavesIds sub) lid hlidm
    have hlo : lo lid = n := hspec.1 n lid hn
    obtain ⟨nd, nm2, hfnd, hrn, hlns⟩ := hspec.2.2 n lid hn
    obtain ⟨pl1, hft⟩ := findT_tip sub hnds (lid, some nm) hpmem
    have hft2 : findT sub lid = some (PTree.node lid (some nm) pl1 []) := hft
    rw [hft2] at hfnd
    injection hfnd with hfnd
    rw [← hfnd] at hrn
    simp only [PTree.rname] at hrn
    injection hrn with hrn
    subst hrn
    have hkpost : k ∈ PTree.post sub := pathTo_sub_post sub lid k hpath
    have hmat : matB k n ≠ 0 := by
      rw [hval k hkpost n]
      have hhit : hitB lo sub k n = true :=
        (hitB_iff lo sub k n).mpr ⟨lid, hlidm, hlo, hpath⟩
      rw [hhit]
      simp
    have hpos := gsvSum_pos_of matB pm taxa sidx k lns 0 n nm hlns hpres
      (by simpa using hmat)
    rw [if_pos hpos]
  · rw [if_neg hP]
    have hnot : ¬ 0 < gsvSum matB pm taxa sidx k lns 0 := by
      intro hpos
      obtain ⟨n, nm, hlns, hpres, hmat⟩ :=
        exists_of_gsvSum_pos matB pm taxa sidx k lns 0 hpos
      have hkpost : k ∈ PTree.post sub := by
        by_contra hkn
        exact hmat (hout k (0 + n) hkn)
      rw [hval k hkpost (0 + n)] at hmat
      by_cases hhit : hitB lo sub k (0 + n) = true
      · obtain ⟨lid, hlidm, hlo, hpath⟩ := (hitB_iff lo sub k (0 + n)).mp hhit
        obtain ⟨m, hm⟩ := mem_lget (leavesIds sub) lid hlidm
        have hlo2 : lo lid = m := hspec.1 m lid hm
        have hmn : m = 0 + n := by rw [← hlo2, hlo]
        obtain ⟨nd, nm2, hfnd, hrn, hlns2⟩ := hspec.2.2 m lid hm
        obtain ⟨p, hpmem, hfst⟩ := List.mem_map.mp hlidm
        obtain ⟨lid2, onm⟩ := p
        simp only at hfst
        rw [hfst] at hpmem
        obtain ⟨pl1, hft⟩ := findT_tip sub hnds (lid, onm) hpmem
        have hft2 : findT sub lid = some (PTree.node lid onm pl1 []) := hft
        rw [hft2] at hfnd
        injection hfnd with hfnd
        rw [← hfnd] at hrn
        simp only [PTree.rname] at hrn
        subst hrn
        rw [hmn, Nat.zero_add] at hlns2
        rw [hlns] at hlns2
        injection hlns2 with hlns2
        subst hlns2
        exact hP ((hasPresB_iff sub pm taxa sidx k).mpr ⟨lid, nm, hpmem, hpath, hpres⟩)
      · rw [if_neg hhit] at hmat
        exact hmat rfl
    rw [if_neg hnot]

/-- C5: when the present set keeps fewer than two leaves of a well-formed
tree (distinct ids, no unary node, named tips) and at least one leaf is not
kept, the pruning loop fails with the prune error and
`compute_unifrac_for_pair` returns that error for the pair instead of
continuing with a degenerate tree. -/
theorem claim_c5 (t : PTree) (taxa : List String) (pm : List (List ℚ))
    (i j : Nat) (pres : List String)
    (hnd : (PTree.post t).Nodup) (hnu : noUnaryB t = true)
    (htn : tipsNamedB t = true)
    (hpt : presentTaxa taxa pm i j = .ok pres)
    (hcnt : ((leafInfo t).filter (fun p => keptB pres p)).length < 2)
    (hex : ∃ p ∈ leafInfo t, keptB pres p = false) :
    compute_unifrac_for_pair t taxa pm i j = .error .pruneFailed := by
  have hfail : plGoC pres (leavesIds t) t = .error .pruneFailed := by
    refine plGoC_fail pres (leavesIds t) t hnd hnu
      (hnd.sublist (leaf_fst_sublist t)) ?_ ?_ ?_ hcnt ?_
    · intro p hp
      simpa using List.all_eq_true.mp htn p hp
    · intro x hx
      obtain ⟨p, hp, hfst⟩ := List.mem_map.mp hx
      obtain ⟨x2, o⟩ := p
      simp only at hfst
      rw [hfst] at hp
      exact ⟨o, hp⟩
    · intro p hp hnot
      exact absurd (List.mem_map_of_mem Prod.fst hp) hnot
    · obtain ⟨p, hp, hkf⟩ := hex
      obtain ⟨x, o⟩ := p
      exact ⟨x, List.mem_map_of_mem Prod.fst hp, o, hp, hkf⟩
  simp only [compute_unifrac_for_pair, hpt, hfail]

/-- C5 witness: on the three-leaf star with only `T1` present anywhere,
the pair (0, 1) ends in the prune error. -/
theorem claim_c5_w :
    compute_unifrac_for_pair exC5t exC5x exC5pm 0 1 = .error .pruneFailed :=
  claim_c5 exC5t exC5x exC5pm 0 1 exC5pres (by decide) (by decide) (by decide)
    rfl (by decide) ⟨(2, some "T2"), by decide, by decide⟩

/-- C2 (amended): for a pair with disjoint presence columns and positive
pruned total, and such that no branch of positive length has present
descendant leaves of both samples, the shared sum is 0 and the distance
is 1. -/
theorem claim_c2_amended (t : PTree) (taxa : List String) (pm : List (List ℚ))
    (i j : Nat) (pres : List String) (sub : PTree) (lo : Nat → Nat)
    (lns : List String) (matB : Nat → Nat → ℕ) (brl : Nat → ℚ)
    (pa pb : Nat → ℚ) (d : ℚ)
    (hnd : (PTree.post t).Nodup) (hnu : noUnaryB t = true)
    (hdisj : ∀ tIdx row vi vj, lget pm tIdx = some row → lget row i = some vi →
      lget row j = some vj → ¬(0 < vi ∧ 0 < vj))
    (hpt : presentTaxa taxa pm i j = .ok pres)
    (hpl : plGoC pres (leavesIds t) t = .ok sub)
    (hld : leafData sub = .ok (lo, lns))
    (hcb : construct_b sub lo = .ok (matB, brl))
    (hpa : get_sample_vec matB pm taxa lns i = .ok pa)
    (hpb : get_sample_vec matB pm taxa lns j = .ok pb)
    (hsh : ∀ k ∈ PTree.post sub, brl k ≠ 0 →
      ¬(hasPresB sub pm taxa i k = true ∧ hasPresB sub pm taxa j k = true))
    (htot : 0 < arrSum brl (sizeT t))
    (hok : compute_unifrac_for_pair t taxa pm i j = .ok d) :
    parallel_elementwise_sum pa pb brl (sizeT t) = 0 ∧ d = 1 := by
  have hkall : ∀ p ∈ leafInfo t, p.1 ∉ leavesIds t → keptB pres p = true :=
    fun p hp hnot => absurd (List.mem_map_of_mem Prod.fst hp) hnot
  obtain ⟨hkept, hsl, hnus⟩ := plGoC_char pres (leavesIds t) t sub hnd hnu hpl hkall
  have hsubnd : (PTree.post sub).Nodup := hnd.sublist hsl
  have hPa := gsv_hasPres sub pm taxa lo lns i matB brl pa hsubnd hld hcb hpa
  have hPb := gsv_hasPres sub pm taxa lo lns j matB brl pb hsubnd hld hcb hpb
  have hinj := leafData_inj sub lo lns hld (hsubnd.sublist (leaf_fst_sublist sub))
  obtain ⟨-, -, -, houtb⟩ := construct_b_char sub lo hsubnd hinj matB brl hcb
  have hzero : ∀ k, pa k * pb k * brl k = 0 := by
    intro k
    by_cases hbk : brl k = 0
    · rw [hbk, mul_zero]
    · have hkpost : k ∈ PTree.post sub := by
        by_contra hkn
        exact hbk (houtb k hkn)
      have hnb := hsh k hkpost hbk
      rw [hPa k, hPb k]
      by_cases hai : hasPresB sub pm taxa i k = true
      · have haj : ¬ hasPresB sub pm taxa j k = true := fun hj => hnb ⟨hai, hj⟩
        rw [if_pos hai, if_neg haj]
        ring
      · rw [if_neg hai]
        ring
  have hS : parallel_elementwise_sum pa pb brl (sizeT t) = 0 := by
    unfold parallel_elementwise_sum
    exact Finset.sum_eq_zero fun k _ => hzero k
  refine ⟨hS, ?_⟩
  unfold compute_unifrac_for_pair at hok
  rw [hpt] at hok
  simp only [hpl, hld, hcb, hpa, hpb, Except.ok.injEq] at hok
  rw [← hok, hS]
  simp

/-- C2 amended witness: the two-leaf star with `{T1}` against `{T2}` has
shared sum 0 and distance 1. -/
theorem claim_c2_amended_w :
    parallel_elementwise_sum exStarPa exStarPb exStarCb2.2 (sizeT exStar) = 0 ∧
      exStarD = 1 := by
  refine claim_c2_amended exStar exStarx exStarpm 0 1 exStarPres exStarSub
    exStarLd2.1 exStarLd2.2 exStarCb2.1 exStarCb2.2 exStarPa exStarPb exStarD
    (by decide) (by decide) ?_ rfl rfl rfl rfl rfl rfl ?_ ?_ rfl
  · intro tIdx row vi vj h1 h2 h3
    match tIdx with
    | 0 =>
        simp only [pmId, exStarpm, lget, Option.some.injEq] at h1
        subst h1
        simp only [lget, Option.some.injEq] at h2 h3
        subst h2
        subst h3
        rintro ⟨-, hb⟩
        norm_num at hb
    | 1 =>
        simp only [pmId, exStarpm, lget, Option.some.injEq] at h1
        subst h1
        simp only [lget, Option.some.injEq] at h2 h3
        subst h2
        subst h3
        rintro ⟨ha, -⟩
        norm_num at ha
    | n + 2 => simp [pmId, exStarpm, lget] at h1
  · intro k hk hbne hcon
    have hk2 : k = 1 ∨ k = 2 ∨ k = 0 := by
      have hm : k ∈ ([1, 2, 0] : List Nat) := hk
      simpa using hm
    rcases hk2 with rfl | rfl | rfl
    · exact absurd hcon.2 (by decide)
    · exact absurd hcon.1 (by decide)
    · exact hbne (by decide)
  · simp [exStarCb2, exStarSub, exStarPres, exStarLd2, okStrs, okTree, okCB,
      okLD, presentTaxa, ptGo, lget, plGoC, findT, findTL, PTree.rid,
      PTree.rname, PTree.kids, PTree.rplen, strMem, leavesIds, leafInfo,
      leafInfoL, leafData, ldGo, construct_b, cbRun, cbStep, mergeRows,
      PTree.post, PTree.postL, arrSum, sizeT, Finset.sum_range_succ, exStar,
      exStarx, exStarpm]

/-- C8 (amended): for a pair with identical binarized presence columns, on
a well-formed tree with distinct taxa names and positive pruned total, the
shared sum equals the total and the distance is 0. -/
theorem claim_c8_amended (t : PTree) (taxa : List String) (pm : List (List ℚ))
    (i j : Nat) (pres : List String) (sub : PTree) (lo : Nat → Nat)
    (lns : List String) (matB : Nat → Nat → ℕ) (brl : Nat → ℚ)
    (pa pb : Nat → ℚ) (d : ℚ)
    (hnd : (PTree.post t).Nodup) (hnu : noUnaryB t = true)
    (htx : taxa.Nodup)
    (hid : ∀ tIdx row vi vj, lget pm tIdx = some row → lget row i = some vi →
      lget row j = some vj → (0 < vi ↔ 0 < vj))
    (hpt : presentTaxa taxa pm i j = .ok pres)
    (hpl : plGoC pres (leavesIds t) t = .ok sub)
    (hld : leafData sub = .ok (lo, lns))
    (hcb : construct_b sub lo = .ok (matB, brl))
    (hpa : get_sample_vec matB pm taxa lns i = .ok pa)
    (hpb : get_sample_vec matB pm taxa lns j = .ok pb)
    (htot : 0 < arrSum brl (sizeT t))
    (hok : compute_unifrac_for_pair t taxa pm i j = .ok d) :
    parallel_elementwise_sum pa pb brl (sizeT t) = arrSum brl (sizeT t) ∧ d = 0 := by
  have hkall : ∀ p ∈ leafInfo t, p.1 ∉ leavesIds t → keptB pres p = true :=
    fun p hp hnot => absurd (List.mem_map_of_mem Prod.fst hp) hnot
  obtain ⟨hkept, hsl, hnus⟩ := plGoC_char pres (leavesIds t) t sub hnd hnu hpl hkall
  have hsubnd : (PTree.post sub).Nodup := hnd.sublist hsl
  have hPa := gsv_hasPres sub pm taxa lo lns i matB brl pa hsubnd hld hcb hpa
  have hPb := gsv_hasPres sub pm taxa lo lns j matB brl pb hsubnd hld hcb hpb
  have hinj := leafData_inj sub lo lns hld (hsubnd.sublist (leaf_fst_sublist sub))
  obtain ⟨-, -, -, houtb⟩ := construct_b_char sub lo hsubnd hinj matB brl hcb
  have hpresB : ∀ k ∈ PTree.post sub,
      hasPresB sub pm taxa i k = true ∧ hasPresB sub pm taxa j k = true := by
    intro k hk
    obtain ⟨p, hpmem, hppath⟩ := desc_leaf sub hsubnd k hk
    obtain ⟨pid, ponm⟩ := p
    have hkp := (hkept (pid, ponm) hpmem).2
    cases ponm with
    | none => simp [keptB] at hkp
    | some nm =>
        have hsm : strMem pres nm = true := by simpa [keptB] using hkp
        rcases ptGo_mem pm i j taxa 0 [] pres hpt nm hsm with
          hacc | ⟨n, row, vi, vj, h1, h2, h3, h4, h5⟩
        · simp [strMem] at hacc
        · have hsix : sidxOf taxa nm = some n := sidxOf_of_lget taxa htx n nm h1
          have h2b : lget pm n = some row := by simpa using h2
          have hiff := hid n row vi vj h2b h3 h4
          have hvi : 0 < vi := by
            rcases h5 with h5 | h5
            · exact h5
            · exact hiff.mpr h5
          have hvj : 0 < vj := hiff.mp hvi
          have hpi : presIn pm taxa i nm = true := by
            simp [presIn, hsix, h2b, h3, hvi]
          have hpj : presIn pm taxa j nm = true := by
            simp [presIn, hsix, h2b, h4, hvj]
          exact ⟨(hasPresB_iff sub pm taxa i k).mpr ⟨pid, nm, hpmem, hppath, hpi⟩,
            (hasPresB_iff sub pm taxa j k).mpr ⟨pid, nm, hpmem, hppath, hpj⟩⟩
  have hterm : ∀ k, pa k * pb k * brl k = brl k := by
    intro k
    by_cases hk : k ∈ PTree.post sub
    · obtain ⟨hi2, hj2⟩ := hpresB k hk
      rw [hPa k, hPb k, if_pos hi2, if_pos hj2]
      ring
    · rw [houtb k hk]
      ring
  have hS : parallel_elementwise_sum pa pb brl (sizeT t) = arrSum brl (sizeT t) := by
    unfold parallel_elementwise_sum arrSum
    exact Finset.sum_congr rfl fun k _ => hterm k
  refine ⟨hS, ?_⟩
  unfold compute_unifrac_for_pair at hok
  rw [hpt] at hok
  simp only [hpl, hld, hcb, hpa, hpb, Except.ok.injEq] at hok
  rw [← hok, hS, div_self (ne_of_gt htot)]
  ring

/-- C8 amended witness: the two-leaf star with both taxa present in both
samples has shared sum equal to the total and distance 0. -/
theorem claim_c8_amended_w :
    parallel_elementwise_sum idPa idPb idCb.2 (sizeT exStar) =
      arrSum idCb.2 (sizeT exStar) ∧ idD = 0 := by
  refine claim_c8_amended exStar exStarx pmId 0 1 idPres idSub
    idLd.1 idLd.2 idCb.1 idCb.2 idPa idPb idD
    (by decide) (by decide) (by decide) ?_ rfl rfl rfl rfl rfl rfl ?_ rfl
  · intro tIdx row vi vj h1 h2 h3
    match tIdx with
    | 0 =>
        simp only [pmId, lget, Option.some.injEq] at h1
        subst h1
        simp only [lget, Option.some.injEq] at h2 h3
        subst h2
        subst h3
        exact Iff.rfl
    | 1 =>
        simp only [pmId, lget, Option.some.injEq] at h1
        subst h1
        simp only [lget, Option.some.injEq] at h2 h3
        subst h2
        subst h3
        exact Iff.rfl
    | n + 2 => simp [pmId, lget] at h1
  · simp [idCb, idSub, idPres, idLd, okStrs, okTree, okCB, okLD,
      presentTaxa, ptGo, lget, plGoC, findT, findTL, PTree.rid, PTree.rname,
      PTree.kids, PTree.rplen, strMem, leavesIds, leafInfo, leafInfoL,
      leafData, ldGo, construct_b, cbRun, cbStep, mergeRows, PTree.post,
      PTree.postL, arrSum, sizeT, Finset.sum_range_succ, exStar, exStarx, pmId]

end UF
